import Mathlib

/-!
Shallow embedding of the validator-inator validation engine.

The repository contains two near-duplicate variants of the engine:
`src/index.ts` (the moment-based variant; definitions suffixed `Idx`) and the
Date-based variant shipped alongside it (the file exporting `_privates`,
here called part_000; definitions suffixed `P0`).  Functions that are textually
identical in both variants are embedded once, unsuffixed.

JavaScript runtime values are modelled by `JVal`:
  * `vnull` / `vundef` model `null` / `undefined` (distinct, as `===` and the
    engine's `res !== null` checks distinguish them);
  * `vdate` models opaque date primitives (`moment` instances in one variant,
    `Date` in the other) — both variants treat them as primitives and never
    inspect them further;
  * `varr items props` models a JS array with element list `items` plus any
    named expando properties `props` (the engine stores an `errors` list as a
    named property on result arrays);
  * `vobj cls typed fields` models a JS object: `cls` is the identity of its
    constructor (used to key the rule registry), `typed` records whether the
    object exposes `getType` (io-ts-derive-class instances), `fields` are its
    own enumerable properties in insertion order (`for..in` order).
Object identity is not modelled: every `varr`/`vobj`/`vdate` literal denotes a
fresh reference, so JS `===` (used only by `Array.prototype.indexOf` in this
code, always on freshly produced values) is false on them; `strictEq` below
reflects exactly that.
-/

inductive JVal where
  | vnull
  | vundef
  | vbool (b : Bool)
  | vnum (n : Int)
  | vstr (s : String)
  | vdate
  | varr (items : List JVal) (props : List (String × JVal))
  | vobj (cls : Nat) (typed : Bool) (fields : List (String × JVal))

open JVal

/-- JS strict equality `===` as used by `indexOf` here: value equality on
primitives, reference equality (hence `false` between the distinct fresh
objects produced by this engine) on arrays, objects and dates. -/
def strictEq : JVal → JVal → Bool
  | vnull, vnull => true
  | vundef, vundef => true
  | vbool a, vbool b => a == b
  | vnum a, vnum b => a == b
  | vstr a, vstr b => a == b
  | _, _ => false

/-- `l.indexOf v !== -1` for a JS array of values. -/
def memStrict (l : List JVal) (v : JVal) : Bool :=
  l.any (fun x => strictEq x v)

def isNullJ : JVal → Bool
  | vnull => true
  | _ => false

def isUndefJ : JVal → Bool
  | vundef => true
  | _ => false

/-- Property lookup in an insertion-ordered JS object. -/
def lookupF {α : Type} : List (String × α) → String → Option α
  | [], _ => none
  | (k, v) :: rest, key => if k == key then some v else lookupF rest key

/-- Property write in an insertion-ordered JS object: an existing key keeps
its position, a new key is appended (JS object semantics). -/
def setF {α : Type} : List (String × α) → String → α → List (String × α)
  | [], key, v => [(key, v)]
  | (k, w) :: rest, key, v => if k == key then (k, v) :: rest else (k, w) :: setF rest key v

/-- `isPrimitive` (identical in both variants up to the opaque date type):
strings, booleans, numbers, null, undefined and date values. -/
def isPrimitiveJ : JVal → Bool
  | vstr _ => true
  | vbool _ => true
  | vnum _ => true
  | vnull => true
  | vundef => true
  | vdate => true
  | _ => false

def isArrJ : JVal → Bool
  | varr _ _ => true
  | _ => false

def isStrJ : JVal → Bool
  | vstr _ => true
  | _ => false

/-- `isRecord`: not primitive, not an array, and `Object.keys(input).length > 0`. -/
def isRecordJ : JVal → Bool
  | vobj _ _ fs => !fs.isEmpty
  | _ => false

/-- `isTypedRecord`: not primitive, not an array, and exposing `getType`. -/
def isTypedRecordJ : JVal → Bool
  | vobj _ typed _ => typed
  | _ => false

/-- `hasKey`: false on primitives, else `key in input` over own properties. -/
def hasKeyJ (v : JVal) (key : String) : Bool :=
  match v with
  | vobj _ _ fs => (lookupF fs key).isSome
  | varr _ props => (lookupF props key).isSome
  | _ => false

def fieldsOf : JVal → List (String × JVal)
  | vobj _ _ fs => fs
  | _ => []

def itemsOf : JVal → List JVal
  | varr items _ => items
  | _ => []

/-- JS property read `v[key]`, yielding `undefined` when absent.  Numeric
indexing of arrays is done through `getIdxJ` below; named expando properties
of arrays are read here. -/
def getFieldJ (v : JVal) (key : String) : JVal :=
  match v with
  | vobj _ _ fs => (lookupF fs key).getD vundef
  | varr _ props => (lookupF props key).getD vundef
  | _ => vundef

/-- JS numeric index read `v[i]` on arrays (`undefined` otherwise/out of range). -/
def getIdxJ (v : JVal) (i : Nat) : JVal :=
  match v with
  | varr items _ => (items.get? i).getD vundef
  | _ => vundef

/-- JS `v.length` where it yields a number: strings, arrays, and objects
carrying a numeric `length` property; `none` models `undefined`. -/
def jsLength : JVal → Option Int
  | vstr s => some (s.length : Int)
  | varr items _ => some (items.length : Int)
  | vobj _ _ fs =>
      match lookupF fs "length" with
      | some (vnum n) => some n
      | _ => none
  | _ => none

/-- `v.length < bound` (false when `length` is `undefined`, as in JS). -/
def jsLenLt (v : JVal) (bound : Int) : Bool :=
  match jsLength v with
  | some len => len < bound
  | none => false

/-- `v.length > i` (false when `length` is `undefined`, as in JS). -/
def jsLenGt (v : JVal) (i : Int) : Bool :=
  match jsLength v with
  | some len => len > i
  | none => false

/-- `target.constructor` identity used to key the registry: the class of an
instance, a fixed identity (1) for arrays, 0 (`Object`) otherwise. -/
def classOfJ : JVal → Nat
  | vobj c _ _ => c
  | varr _ _ => 1
  | _ => 0

/-- `model.getType` truthiness. -/
def hasGetTypeJ : JVal → Bool
  | vobj _ typed _ => typed
  | _ => false

/-- `String.prototype.startsWith`, computed on the character sequences (the
same answer as Lean's `String.startsWith`, in a form the kernel can
evaluate). -/
def strStartsWith (s pre : String) : Bool :=
  pre.data.isPrefixOf s.data

/-- `isInValidationPath` (identical in both variants): every path is in scope
when no validation path was supplied, else the validation path must start
with the current path. -/
def isInValidationPath (currentPath : String) (validationPath : Option String) : Bool :=
  match validationPath with
  | none => true
  | some vp => strStartsWith vp currentPath

/-- `isValidationArray` (identical in both variants): an array whose `errors`
property is itself an array. -/
def isValidationArrayJ (v : JVal) : Bool :=
  match v with
  | varr _ props =>
      match lookupF props "errors" with
      | some (varr _ _) => true
      | _ => false
  | _ => false

/-- `Object.assign(target, src)`: copies `src`'s fields onto `target`
(named expando properties when `target` is an array). -/
def jsAssign (target : JVal) (src : List (String × JVal)) : JVal :=
  match target with
  | vobj c t fs => vobj c t (src.foldl (fun acc p => setF acc p.1 p.2) fs)
  | varr items props => varr items (src.foldl (fun acc p => setF acc p.1 p.2) props)
  | other => other

/-- `RequiredValidator.validate` of the `src/index.ts` variant: fails on
null/undefined, and on strings shorter than one character; everything else
(including empty arrays) passes. -/
def requiredValidateIdx (message : String) (value : JVal) : JVal :=
  if isNullJ value || isUndefJ value then vstr message
  else match value with
    | vstr s => if (s.length : Int) < 1 then vstr message else vnull
    | _ => vnull

/-- `RequiredValidator.validate` of the part_000 variant: fails on
null/undefined, and on any value whose `length` is less than 1 (strings,
arrays, and other length-bearing values). -/
def requiredValidateP0 (message : String) (value : JVal) : JVal :=
  if isNullJ value || isUndefJ value then vstr message
  else if jsLenLt value 1 then vstr message
  else vnull

/-- `MaxLengthValidator.validate` of the `src/index.ts` variant.  Note the
source compares `value < this.max` (not `>`) in the numeric branch while
reporting the message `'must be less than ' + max`, and length-checks only
strings. -/
def maxValidateIdx (max : Int) (message : Option String) (value : JVal) : JVal :=
  if isNullJ value || isUndefJ value then vnull
  else match value with
    | vstr s =>
        if (s.length : Int) > max then
          vstr (message.getD ("must be fewer than " ++ toString max ++ " characters"))
        else vnull
    | vnum n =>
        if n < max then
          vstr (message.getD ("must be less than " ++ toString max))
        else vnull
    | _ => vnull

/-- `MinLengthValidator.validate` of the `src/index.ts` variant: strings are
length-checked against the bound, numbers compared against it. -/
def minValidateIdx (min : Int) (message : Option String) (value : JVal) : JVal :=
  if isNullJ value || isUndefJ value then vnull
  else match value with
    | vstr s =>
        if (s.length : Int) < min then
          vstr (message.getD ("must be at least " ++ toString min ++ " characters"))
        else vnull
    | vnum n =>
        if n < min then
          vstr (message.getD ("must be greater than " ++ toString min))
        else vnull
    | _ => vnull

/-!
Rules and the rule registry (`ValidationRegistry`).  A registered rule is
either a `FieldValidator` (its `validate` receives only the field value; the
flag records `isRequiredFieldValidator`) or a plain validator function
receiving `(model, ctx, originalModel)`.  Asynchronous results are modelled
post-`await`: a rule's function yields the settled value.
-/

inductive Rule where
  | fieldV (isRequired : Bool) (f : JVal → JVal)
  | modelV (f : JVal → JVal → JVal → JVal)

/-- A value of the `ValidationModel` mapping: a single rule or a list. -/
inductive RuleVal where
  | one (r : Rule)
  | many (rs : List Rule)

def ruleValList : RuleVal → List Rule
  | RuleVal.one r => [r]
  | RuleVal.many rs => rs

/-- The registry's `map`: class identity → field name → ordered rule list. -/
abbrev Registry := List (Nat × List (String × List Rule))

def lookupC {α : Type} : List (Nat × α) → Nat → Option α
  | [], _ => none
  | (k, v) :: rest, key => if k == key then some v else lookupC rest key

def setC {α : Type} : List (Nat × α) → Nat → α → List (Nat × α)
  | [], key, v => [(key, v)]
  | (k, w) :: rest, key, v => if k == key then (k, v) :: rest else (k, w) :: setC rest key v

/-- `getValidatorsFor`: the per-field rule lists of a class, `{}` if the class
was never registered. -/
def getValidatorsForJ (reg : Registry) (klass : Nat) : List (String × List Rule) :=
  (lookupC reg klass).getD []

/-- The `for(const prop in map)` loop of `register`: each mapped field's
normalized rule list is appended to whatever the class already has for that
field. -/
def registerFold (cm : List (String × List Rule)) :
    List (String × RuleVal) → List (String × List Rule)
  | [] => cm
  | (prop, rv) :: rest =>
      registerFold (setF cm prop (((lookupF cm prop).getD []) ++ ruleValList rv)) rest

/-- `ValidationRegistry.register` (identical in both variants). -/
def registerJ (reg : Registry) (klass : Nat) (m : List (String × RuleVal)) : Registry :=
  setC reg klass (registerFold (getValidatorsForJ reg klass) m)

/-- Executing one rule: a `FieldValidator` sees the field value, a plain
validator sees `(model, ctx, originalModel)` (with `originalModel` being
`undefined` when absent). -/
def runRuleJ (r : Rule) (model ctx orig propValue : JVal) : JVal :=
  match r with
  | Rule.fieldV _ f => f propValue
  | Rule.modelV f => f model ctx orig

/-!
The `src/index.ts` engine.  `validate` builds its output in the local object
`result`, modelled as the insertion-ordered association list `St`; the final
return value wraps it as a plain JS object.
-/

abbrev St := List (String × JVal)

/-- JS falsiness, for the `if(!current.errors)` / `if(!current)` checks. -/
def isFalsyJ : JVal → Bool
  | vnull => true
  | vundef => true
  | vbool b => !b
  | vnum n => n == 0
  | vstr s => s.isEmpty
  | _ => false

/-- Falsiness of a property read: an absent property is `undefined`. -/
def isFalsyOpt : Option JVal → Bool
  | none => true
  | some v => isFalsyJ v

/-- The `innerAdd` closure of `addToArray` in `src/index.ts`: ensures the
node at `key` carries an `errors` array, then appends `res` to that `errors`
array — but deduplicates against the node's *element* list
(`current.indexOf(res)`), not against `errors`.  On a non-array node JS would
raise a `TypeError` (unreachable from `validate`); that case leaves the state
unchanged here. -/
def innerAddIdx (st : St) (key : String) (res : JVal) : St :=
  match (lookupF st key).getD (varr [] []) with
  | varr items props =>
      let props1 :=
        if isFalsyOpt (lookupF props "errors") then setF props "errors" (varr [] []) else props
      let props2 :=
        if !isNullJ res && !memStrict items res then
          match lookupF props1 "errors" with
          | some (varr es eps) => setF props1 "errors" (varr (es ++ [res]) eps)
          | _ => props1
        else props1
      setF st key (varr items props2)
  | _ => st

mutual
/-- The `add` closure of `validate` in `src/index.ts`: a record result is
unfolded field by field; otherwise `res` is appended (deduplicated by `===`)
to the flat list at `key`.  Note there is no array-field routing here.  On a
non-array node JS would raise a `TypeError` (unreachable from `validate`);
that case leaves the state unchanged here. -/
def addIdx (key : String) (res : JVal) (st : St) : St :=
  if isRecordJ res then addFieldsIdx (fieldsOf res) st
  else
    match (lookupF st key).getD (varr [] []) with
    | varr items props =>
        if !isNullJ res && !memStrict items res then setF st key (varr (items ++ [res]) props)
        else setF st key (varr items props)
    | _ => st
termination_by (sizeOf res, 0)
decreasing_by
  all_goals simp_wf
  all_goals cases res <;> simp_all [isRecordJ, fieldsOf] <;> omega

/-- The `for(var k in r)` loop inside `add`. -/
def addFieldsIdx (fs : List (String × JVal)) (st : St) : St :=
  match fs with
  | [] => st
  | (k, v) :: rest => addFieldsIdx rest (addIdx k v st)
termination_by (sizeOf fs, 1)
decreasing_by
  all_goals simp_wf
  all_goals omega
end

mutual
/-- The `addToArray` closure of `validate` in `src/index.ts`. -/
def addToArrayIdx (model : JVal) (key : String) (res : JVal) (st : St) : St :=
  if isNullJ res then st
  else if isRecordJ res then addToArrayFieldsIdx model key res (fieldsOf res) st
  else innerAddIdx st key res
termination_by (sizeOf res, 0)
decreasing_by
  all_goals simp_wf
  all_goals cases res <;> simp_all [isRecordJ, fieldsOf] <;> omega

/-- The `for(var k in r)` loop inside `addToArray`: on reaching the key the
rule was registered under it hands the *whole record* to `innerAdd` and
stops; any other key is routed to `addToArray` when its model value is an
array, and (unconditionally) to `add`. -/
def addToArrayFieldsIdx (model : JVal) (key : String) (r : JVal)
    (fs : List (String × JVal)) (st : St) : St :=
  match fs with
  | [] => st
  | (k, v) :: rest =>
      if k == key then innerAddIdx st key r
      else
        let st1 := if isArrJ (getFieldJ model k) then addToArrayIdx model k v st else st
        let st2 := addIdx k v st1
        addToArrayFieldsIdx model key r rest st2
termination_by (sizeOf fs, 1)
decreasing_by
  all_goals simp_wf
  all_goals omega
end

/-- The per-rule merge dispatch in the validator loop of `src/index.ts`
`validate`: array-valued fields route through `addToArray`; primitive-valued
fields through `add`; record-valued fields only accept record results — any
other result (e.g. a plain string for a nested-object field) is dropped. -/
def mergeStepIdx (model : JVal) (key : String) (res : JVal) (st : St) : St :=
  let propValue := getFieldJ model key
  if isArrJ propValue then addToArrayIdx model key res st
  else if isPrimitiveJ propValue then addIdx key res st
  else if isTypedRecordJ res || isRecordJ res then addIdx key res st
  else st

/-- The inner `for(var i = 0; i < propValidators.length; i++)` loop: every
rule for the field runs (awaited), in registration order. -/
def runValidatorsIdx (model ctx orig : JVal) (key : String) (rules : List Rule) (st : St) : St :=
  match rules with
  | [] => st
  | r :: rest =>
      runValidatorsIdx model ctx orig key rest
        (mergeStepIdx model key (runRuleJ r model ctx orig (getFieldJ model key)) st)

/-- The `for(const key in validators)` loop: fields whose accumulated path is
out of scope are skipped entirely. -/
def validatorLoopIdx (model ctx orig : JVal) (vpath : Option String) (path : String)
    (vs : List (String × List Rule)) (st : St) : St :=
  match vs with
  | [] => st
  | (key, rules) :: rest =>
      let st1 :=
        if isInValidationPath (path ++ key) vpath then
          runValidatorsIdx model ctx orig key rules st
        else st
      validatorLoopIdx model ctx orig vpath path rest st1

/-- `PathReporter.report(decodeResult).forEach(o => add(key, o))`. -/
def decodeErrsIdx (key : String) (msgs : List String) (st : St) : St :=
  match msgs with
  | [] => st
  | m :: rest => decodeErrsIdx key rest (addIdx key (vstr m) st)

/-!
The external schema capability (io-ts types, consumed only through
`model.getType().props`, each prop's `_tag`, and `prop.decode`): a field is
declared as an inline `t.type` (`_tag === "InterfaceType"`), an array type
(`_tag` containing `"ArrayType"`), or anything else, in which case its
`decode` is consulted and yields the (possibly empty) list of
`PathReporter` messages.
-/

inductive FieldTag where
  | interfaceType
  | arrayType
  | otherTag (decode : JVal → List String)

abbrev Schema := Nat → List (String × FieldTag)

theorem sizeOf_lookupF_lt (fs : List (String × JVal)) (key : String) :
    sizeOf ((lookupF fs key).getD JVal.vundef) < 1 + sizeOf fs := by
  induction fs with
  | nil => simp [lookupF]
  | cons h t ih =>
      obtain ⟨k, v⟩ := h
      by_cases hk : (k == key) = true
      · simp [lookupF, hk]
        omega
      · simp only [lookupF, hk, if_neg]
        simp only [Bool.not_eq_true] at hk
        simp [hk]
        omega

theorem sizeOf_itemsOf_le (v : JVal) : sizeOf (itemsOf v) ≤ sizeOf v := by
  cases v <;> simp [itemsOf] <;> omega

mutual
/-- `ValidationRegistry.validate` of `src/index.ts` (rule results already
awaited; the caller-supplied context is `ctx`, the original model is `orig`
with `vundef` meaning "not supplied"). -/
def validateIdx (reg : Registry) (sch : Schema) (model ctx orig : JVal)
    (vpath : Option String) (path : String) : JVal :=
  if isPrimitiveJ model then vobj 0 false []
  else
    let validators := getValidatorsForJ reg (classOfJ model)
    let st := validatorLoopIdx model ctx orig vpath path validators []
    match model with
    | vobj c true fs => vobj 0 false (schemaLoopIdx reg sch ctx orig vpath path fs (sch c) st)
    | _ => vobj 0 false st
termination_by (sizeOf model, 0)
decreasing_by
  all_goals simp_wf
  all_goals try simp
  all_goals omega

/-- The `tag === "InterfaceType" || isTypedRecord(propValue)` branch of the
schema loop of `src/index.ts` `validate`: recurse into the field value and
merge the sub-result into any node the rules already produced for the key
(only when the sub-result is non-empty), else install it. -/
def schemaIfaceIdx (reg : Registry) (sch : Schema) (ctx originalValue : JVal)
    (vpath : Option String) (path : String) (key : String) (propValue : JVal)
    (current : Option JVal) (st : St) : St :=
  let inner := validateIdx reg sch propValue ctx originalValue vpath (path ++ key ++ ".")
  match current with
  | some cur =>
      if (fieldsOf inner).length > 0 then setF st key (jsAssign cur (fieldsOf inner))
      else st
  | none => setF st key inner
termination_by (sizeOf propValue, 1)
decreasing_by
  all_goals simp_wf
  apply Prod.Lex.right
  omega

/-- One iteration of the schema loop of `src/index.ts` `validate`, for the
declared field `key` with tag `ftag` (`fs` are the model's own fields).  The
source's `if(tag === "InterfaceType" || isTypedRecord(propValue)) … else if
(tagContains("ArrayType")) … else …` chain is rendered as a match on the tag
with the `isTypedRecord(propValue)` test repeated in the two non-interface
arms — the same decision table. -/
def schemaStepIdx (reg : Registry) (sch : Schema) (ctx orig : JVal)
    (vpath : Option String) (path : String) (fs : List (String × JVal))
    (key : String) (ftag : FieldTag) (st : St) : St :=
  if isInValidationPath (path ++ key) vpath then
    let propValue := (lookupF fs key).getD vundef
    let originalValue := if hasKeyJ orig key then getFieldJ orig key else vundef
    let current := lookupF st key
    match ftag with
    | FieldTag.interfaceType =>
        schemaIfaceIdx reg sch ctx originalValue vpath path key propValue current st
    | FieldTag.arrayType =>
        if isTypedRecordJ propValue then
          schemaIfaceIdx reg sch ctx originalValue vpath path key propValue current st
        else
          match (lookupF st key).getD (varr [] []) with
          | varr items aprops =>
              let newItems :=
                validateArrayIdx reg sch ctx originalValue vpath (path ++ key)
                  (itemsOf propValue) 0
              let aprops1 :=
                if isFalsyOpt (lookupF aprops "errors") then
                  setF aprops "errors" (varr [] [])
                else aprops
              setF st key (varr (items ++ newItems) aprops1)
          | _ => st
    | FieldTag.otherTag decode =>
        if isTypedRecordJ propValue then
          schemaIfaceIdx reg sch ctx originalValue vpath path key propValue current st
        else
          let st2 := if current.isNone then setF st key (varr [] []) else st
          decodeErrsIdx key (decode propValue) st2
  else st
termination_by (1 + sizeOf fs, 0)
decreasing_by
  all_goals simp_wf
  all_goals
    first
    | exact Prod.Lex.left _ _ (sizeOf_lookupF_lt fs key)
    | (apply Prod.Lex.left
       have h1 := sizeOf_itemsOf_le ((lookupF fs key).getD JVal.vundef)
       have h2 := sizeOf_lookupF_lt fs key
       omega)
    | (apply Prod.Lex.right; omega)
    | omega

/-- The `for(var i = 0; i < propKeys.length; i++)` loop over the schema's
declared fields of `src/index.ts` `validate`. -/
def schemaLoopIdx (reg : Registry) (sch : Schema) (ctx orig : JVal)
    (vpath : Option String) (path : String) (fs : List (String × JVal))
    (props : List (String × FieldTag)) (st : St) : St :=
  match props with
  | [] => st
  | (key, ftag) :: rest =>
      schemaLoopIdx reg sch ctx orig vpath path fs rest
        (schemaStepIdx reg sch ctx orig vpath path fs key ftag st)
termination_by (1 + sizeOf fs, 1 + sizeOf props)
decreasing_by
  all_goals simp_wf
  all_goals apply Prod.Lex.right
  all_goals omega

/-- The `for(var k = 0; k < propValue.length; k++)` per-element loop of the
array branch: every element is validated (with the index-aligned original
element when the original is long enough) and its node pushed regardless of
emptiness. -/
def validateArrayIdx (reg : Registry) (sch : Schema) (ctx originalValue : JVal)
    (vpath : Option String) (pathKey : String) (items : List JVal) (i : Nat) : List JVal :=
  match items with
  | [] => []
  | item :: rest =>
      let originalItem :=
        if !isUndefJ originalValue && jsLenGt originalValue (Int.ofNat i) then getIdxJ originalValue i
        else vundef
      let inner :=
        validateIdx reg sch item ctx originalItem vpath (pathKey ++ "[" ++ toString i ++ "]" ++ ".")
      inner :: validateArrayIdx reg sch ctx originalValue vpath pathKey rest (i + 1)
termination_by (sizeOf items, 0)
decreasing_by
  all_goals simp_wf
  all_goals try simp
  all_goals omega
end

/-!
The part_000 engine.  Its `addToArray`/`innerAdd` can throw
(`Not a valid error string!`), so every state transformer lives in
`Except String`; `.error` models a thrown exception propagating out of
`validate` (rejecting the promise).
-/

/-- The `innerAdd` closure of part_000's `addToArray`: ensures the node at
`key` carries an `errors` array and stores it back *before* examining `res`;
a null `res` is then ignored, a non-string `res` throws
`Not a valid error string!`, and a string is appended to `errors`
(deduplicated against `errors` itself).  A non-array node at `key` is
unreachable from `validate`; there the state is returned unchanged. -/
def innerAddP0 (st : St) (key : String) (res : JVal) : Except String St :=
  match (lookupF st key).getD (varr [] []) with
  | varr items props =>
      let props1 :=
        if isFalsyOpt (lookupF props "errors") then setF props "errors" (varr [] []) else props
      let st1 := setF st key (varr items props1)
      if isNullJ res then .ok st1
      else
        match res with
        | vstr _ =>
            match lookupF props1 "errors" with
            | some (varr es eps) =>
                if memStrict es res then .ok st1
                else .ok (setF st1 key (varr items (setF props1 "errors" (varr (es ++ [res]) eps))))
            | _ => .ok st1
        | _ => .error "Not a valid error string!"
  | _ => .ok st

mutual
/-- The `add` closure of part_000's `validate`: a field whose model value is
an array is routed to `addToArray`; a record result is unfolded field by
field; otherwise `res` is appended (deduplicated by `===`) to the flat list
at `key`. -/
def addP0 (model : JVal) (key : String) (res : JVal) (st : St) : Except String St :=
  if isArrJ (getFieldJ model key) then addToArrayP0 model key res st
  else if isRecordJ res then addFieldsP0 model (fieldsOf res) st
  else
    match (lookupF st key).getD (varr [] []) with
    | varr items props =>
        if !isNullJ res && !memStrict items res then .ok (setF st key (varr (items ++ [res]) props))
        else .ok (setF st key (varr items props))
    | _ => .ok st
termination_by (sizeOf res, 1)
decreasing_by
  all_goals simp_wf
  · apply Prod.Lex.right; omega
  · apply Prod.Lex.left; cases res <;> simp_all [isRecordJ, fieldsOf] <;> omega

/-- The `for(var k in r)` loop inside part_000's `add`. -/
def addFieldsP0 (model : JVal) (fs : List (String × JVal)) (st : St) : Except String St :=
  match fs with
  | [] => .ok st
  | (k, v) :: rest =>
      match addP0 model k v st with
      | .error e => .error e
      | .ok st1 => addFieldsP0 model rest st1
termination_by (sizeOf fs, 2)
decreasing_by
  all_goals simp_wf
  all_goals omega

/-- The `addToArray` closure of part_000's `validate`: null results are
ignored, string results go to `innerAdd`, record results are unfolded, and
anything else falls off the end (silently ignored). -/
def addToArrayP0 (model : JVal) (key : String) (res : JVal) (st : St) : Except String St :=
  if isNullJ res then .ok st
  else if isStrJ res then innerAddP0 st key res
  else if isRecordJ res then addToArrayFieldsP0 model key (fieldsOf res) st
  else .ok st
termination_by (sizeOf res, 0)
decreasing_by
  all_goals simp_wf
  all_goals cases res <;> simp_all [isRecordJ, fieldsOf] <;> omega

/-- The `for(var k in r)` loop inside part_000's `addToArray`: keys whose
model value is an array recurse through `addToArray`; the rule's own key
(when its model value is not an array) goes to `innerAdd` and stops the
loop; every other key goes through `add`. -/
def addToArrayFieldsP0 (model : JVal) (key : String) (fs : List (String × JVal)) (st : St) :
    Except String St :=
  match fs with
  | [] => .ok st
  | (k, v) :: rest =>
      if isArrJ (getFieldJ model k) then
        match addToArrayP0 model k v st with
        | .error e => .error e
        | .ok st1 => addToArrayFieldsP0 model key rest st1
      else if k == key then innerAddP0 st k v
      else
        match addP0 model k v st with
        | .error e => .error e
        | .ok st1 => addToArrayFieldsP0 model key rest st1
termination_by (sizeOf fs, 2)
decreasing_by
  all_goals simp_wf
  all_goals omega
end

/-- The inner rules loop of part_000's `validate`: every awaited rule result
is merged through `add`. -/
def runValidatorsP0 (model ctx orig : JVal) (key : String) (rules : List Rule) (st : St) :
    Except String St :=
  match rules with
  | [] => .ok st
  | r :: rest =>
      match addP0 model key (runRuleJ r model ctx orig (getFieldJ model key)) st with
      | .error e => .error e
      | .ok st1 => runValidatorsP0 model ctx orig key rest st1

/-- The `for(const key in validators)` loop of part_000's `validate`. -/
def validatorLoopP0 (model ctx orig : JVal) (vpath : Option String) (path : String)
    (vs : List (String × List Rule)) (st : St) : Except String St :=
  match vs with
  | [] => .ok st
  | (key, rules) :: rest =>
      if isInValidationPath (path ++ key) vpath then
        match runValidatorsP0 model ctx orig key rules st with
        | .error e => .error e
        | .ok st1 => validatorLoopP0 model ctx orig vpath path rest st1
      else validatorLoopP0 model ctx orig vpath path rest st

/-- `PathReporter.report(decodeResult).forEach(o => add(key, o))` in
part_000 (its `add` consults the model, hence the extra argument). -/
def decodeErrsP0 (model : JVal) (key : String) (msgs : List String) (st : St) :
    Except String St :=
  match msgs with
  | [] => .ok st
  | m :: rest =>
      match addP0 model key (vstr m) st with
      | .error e => .error e
      | .ok st1 => decodeErrsP0 model key rest st1

mutual
/-- `ValidationRegistry.validate` of part_000 (rule results already awaited;
`.error` models the promise rejecting with a thrown exception). -/
def validateP0 (reg : Registry) (sch : Schema) (model ctx orig : JVal)
    (vpath : Option String) (path : String) : Except String JVal :=
  if isPrimitiveJ model then .ok (vobj 0 false [])
  else
    match validatorLoopP0 model ctx orig vpath path (getValidatorsForJ reg (classOfJ model)) [] with
    | .error e => .error e
    | .ok st =>
        match model with
        | vobj c true fs =>
            match schemaLoopP0 reg sch model ctx orig vpath path fs (sch c) st with
            | .error e => .error e
            | .ok st1 => .ok (vobj 0 false st1)
        | _ => .ok (vobj 0 false st)
termination_by (sizeOf model, 0)
decreasing_by
  all_goals simp_wf
  all_goals try simp
  all_goals omega

/-- The interface/typed-record branch of part_000's schema loop. -/
def schemaIfaceP0 (reg : Registry) (sch : Schema) (ctx originalValue : JVal)
    (vpath : Option String) (path : String) (key : String) (propValue : JVal)
    (current : Option JVal) (st : St) : Except String St :=
  match validateP0 reg sch propValue ctx originalValue vpath (path ++ key ++ ".") with
  | .error e => .error e
  | .ok inner =>
      match current with
      | some cur =>
          if (fieldsOf inner).length > 0 then .ok (setF st key (jsAssign cur (fieldsOf inner)))
          else .ok st
      | none => .ok (setF st key inner)
termination_by (sizeOf propValue, 1)
decreasing_by
  all_goals simp_wf
  apply Prod.Lex.right
  omega

/-- One iteration of part_000's schema loop (same decision table as the
source's `if`/`else if` chain, rendered as a match on the tag with the
`isTypedRecord(propValue)` test in the two non-interface arms). -/
def schemaStepP0 (reg : Registry) (sch : Schema) (model ctx orig : JVal)
    (vpath : Option String) (path : String) (fs : List (String × JVal))
    (key : String) (ftag : FieldTag) (st : St) : Except String St :=
  if isInValidationPath (path ++ key) vpath then
    let propValue := (lookupF fs key).getD vundef
    let originalValue := if hasKeyJ orig key then getFieldJ orig key else vundef
    let current := lookupF st key
    match ftag with
    | FieldTag.interfaceType =>
        schemaIfaceP0 reg sch ctx originalValue vpath path key propValue current st
    | FieldTag.arrayType =>
        if isTypedRecordJ propValue then
          schemaIfaceP0 reg sch ctx originalValue vpath path key propValue current st
        else
          match (lookupF st key).getD (varr [] []) with
          | varr items aprops =>
              match validateArrayP0 reg sch ctx originalValue vpath (path ++ key)
                  (itemsOf propValue) 0 with
              | .error e => .error e
              | .ok newItems =>
                  let aprops1 :=
                    if isFalsyOpt (lookupF aprops "errors") then
                      setF aprops "errors" (varr [] [])
                    else aprops
                  .ok (setF st key (varr (items ++ newItems) aprops1))
          | _ => .ok st
    | FieldTag.otherTag decode =>
        if isTypedRecordJ propValue then
          schemaIfaceP0 reg sch ctx originalValue vpath path key propValue current st
        else
          let st2 := if current.isNone then setF st key (varr [] []) else st
          decodeErrsP0 model key (decode propValue) st2
  else .ok st
termination_by (1 + sizeOf fs, 0)
decreasing_by
  all_goals simp_wf
  all_goals
    first
    | exact Prod.Lex.left _ _ (sizeOf_lookupF_lt fs key)
    | (apply Prod.Lex.left
       have h1 := sizeOf_itemsOf_le ((lookupF fs key).getD JVal.vundef)
       have h2 := sizeOf_lookupF_lt fs key
       omega)
    | (apply Prod.Lex.right; omega)
    | omega

/-- The schema-driven field loop of part_000's `validate`. -/
def schemaLoopP0 (reg : Registry) (sch : Schema) (model ctx orig : JVal)
    (vpath : Option String) (path : String) (fs : List (String × JVal))
    (props : List (String × FieldTag)) (st : St) : Except String St :=
  match props with
  | [] => .ok st
  | (key, ftag) :: rest =>
      match schemaStepP0 reg sch model ctx orig vpath path fs key ftag st with
      | .error e => .error e
      | .ok st1 => schemaLoopP0 reg sch model ctx orig vpath path fs rest st1
termination_by (1 + sizeOf fs, 1 + sizeOf props)
decreasing_by
  all_goals simp_wf
  all_goals apply Prod.Lex.right
  all_goals omega

/-- The per-element loop of part_000's array branch. -/
def validateArrayP0 (reg : Registry) (sch : Schema) (ctx originalValue : JVal)
    (vpath : Option String) (pathKey : String) (items : List JVal) (i : Nat) :
    Except String (List JVal) :=
  match items with
  | [] => .ok []
  | item :: rest =>
      let originalItem :=
        if !isUndefJ originalValue && jsLenGt originalValue (Int.ofNat i) then getIdxJ originalValue i
        else vundef
      match validateP0 reg sch item ctx originalItem vpath
          (pathKey ++ "[" ++ toString i ++ "]" ++ ".") with
      | .error e => .error e
      | .ok inner =>
          match validateArrayP0 reg sch ctx originalValue vpath pathKey rest (i + 1) with
          | .error e => .error e
          | .ok others => .ok (inner :: others)
termination_by (sizeOf items, 0)
decreasing_by
  all_goals simp_wf
  all_goals try simp
  all_goals omega
end

/-!
`isValid` (textually identical in both variants).  The JS function
`for..in`-iterates the node's properties; on a property that is an array it
distinguishes a validation array (carrying an `errors` array) from a plain
error list; otherwise it recurses when the property has enumerable keys.
On ill-formed graphs containing non-empty strings as nodes the JS original
recurses forever (a string's `for..in` keys are its indices); the embedding
is total and the claims about `isValid` are stated over well-formed result
graphs, where that difference is invisible.
-/

/-- `Object.keys(v).length > 0` for the non-array operand of `isValid`'s
branch (a string's keys are its character indices). -/
def keysNonemptyJ : JVal → Bool
  | vobj _ _ fs => !fs.isEmpty
  | vstr s => !s.isEmpty
  | _ => false

mutual
/-- `isValid` over a result node. -/
def isValidJ (g : JVal) : Bool :=
  match g with
  | vobj _ _ fs => isValidFieldsJ fs
  | _ => true
termination_by (sizeOf g, 0)
decreasing_by
  all_goals simp_wf
  all_goals try simp
  all_goals omega

/-- The `for(var p in result)` loop of `isValid`. -/
def isValidFieldsJ (fs : List (String × JVal)) : Bool :=
  match fs with
  | [] => true
  | (_, v) :: rest => isValidEntryJ v && isValidFieldsJ rest
termination_by (sizeOf fs, 2)
decreasing_by
  all_goals simp_wf
  all_goals apply Prod.Lex.left
  all_goals omega

/-- One iteration of `isValid`'s loop on the property value `v`: an array is
checked as a validation array or a plain list; anything else recurses when it
has enumerable keys.  (On the remaining key-less primitives
`if keysNonemptyJ v then isValidJ v else true` is definitionally `true`,
written directly.  On a non-empty string the JS original recurses forever;
here `isValidJ` of a string is `true`, a difference invisible on well-formed
graphs.) -/
def isValidEntryJ (v : JVal) : Bool :=
  match v with
  | varr items props =>
      match lookupF props "errors" with
      | some (varr es _) => es.isEmpty && isValidItemsJ items
      | _ => items.isEmpty
  | vobj c t fs => if keysNonemptyJ (vobj c t fs) then isValidJ (vobj c t fs) else true
  | vstr s => if keysNonemptyJ (vstr s) then isValidJ (vstr s) else true
  | vnull => true
  | vundef => true
  | vbool _ => true
  | vnum _ => true
  | vdate => true
termination_by (sizeOf v, 1)
decreasing_by
  all_goals simp_wf
  · apply Prod.Lex.left; try simp
    omega
  · apply Prod.Lex.right; omega
  · apply Prod.Lex.right; omega

/-- The per-entry loop over a validation array's element nodes. -/
def isValidItemsJ (items : List JVal) : Bool :=
  match items with
  | [] => true
  | x :: rest => isValidJ x && isValidItemsJ rest
termination_by (sizeOf items, 2)
decreasing_by
  all_goals simp_wf
  all_goals apply Prod.Lex.left
  all_goals omega
end

/-!
Well-formed result graphs, and the specification-side predicate of the
`isValid` claim.  A well-formed field node is either a flat list of error
strings without an `errors` property, a validation array (element sub-nodes
plus a string `errors` list), or a nested node of the same shape; these are
exactly the shapes `validate` produces.
-/

inductive WFNode : JVal → Prop where
  | leaf (items : List JVal) (h : ∀ v ∈ items, ∃ s, v = vstr s) :
      WFNode (varr items [])
  | arrNode (items : List JVal) (es : List JVal)
      (hes : ∀ v ∈ es, ∃ s, v = vstr s)
      (hobjs : ∀ v ∈ items, ∃ c, ∃ t, ∃ fs, v = vobj c t fs)
      (hitems : ∀ v ∈ items, WFNode v) :
      WFNode (varr items [("errors", varr es [])])
  | node (c : Nat) (t : Bool) (fs : List (String × JVal))
      (h : ∀ p ∈ fs, WFNode p.2) :
      WFNode (vobj c t fs)

mutual
/-- Specification-side reading of the `isValid` claim: every leaf error list
is empty, every validation array's own `errors` list is empty and its element
sub-nodes recursively satisfy the same, and every nested node recursively
satisfies the same. -/
def specAllErrorsEmpty (g : JVal) : Bool :=
  match g with
  | varr items props =>
      match lookupF props "errors" with
      | some (varr es _) => es.isEmpty && specItemsEmpty items
      | _ => items.isEmpty
  | vobj _ _ fs => specFieldsEmpty fs
  | _ => true
termination_by (sizeOf g, 0)
decreasing_by
  all_goals simp_wf
  all_goals apply Prod.Lex.left
  all_goals try simp
  all_goals omega

def specItemsEmpty (items : List JVal) : Bool :=
  match items with
  | [] => true
  | x :: rest => specAllErrorsEmpty x && specItemsEmpty rest
termination_by (sizeOf items, 1)
decreasing_by
  all_goals simp_wf
  all_goals apply Prod.Lex.left
  all_goals omega

def specFieldsEmpty (fs : List (String × JVal)) : Bool :=
  match fs with
  | [] => true
  | (_, v) :: rest => specAllErrorsEmpty v && specFieldsEmpty rest
termination_by (sizeOf fs, 1)
decreasing_by
  all_goals simp_wf
  all_goals apply Prod.Lex.left
  all_goals omega
end

/-!
Concrete registries, schemas and models used to settle the claims.  Class
identities: each scenario uses its own class number.  `FieldTag.otherTag
(fun _ => [])` is a primitive schema type whose decoder always succeeds.
-/

/-- A model rule registered under the array field `A` that reports through a
partial mapping keyed by that same field. -/
def regC1 : Registry :=
  [(20, [("A", [Rule.modelV (fun _ _ _ => vobj 0 false [("A", vstr "m")])])])]

def schC1 : Schema := fun c => if c == 20 then [("A", FieldTag.arrayType)] else []

def modelC1 : JVal := vobj 20 true [("A", varr [] [])]

/-- A model rule registered under the primitive field `B` that reports
against the array field `A` through a partial mapping. -/
def regC2 : Registry :=
  [(10, [("B", [Rule.modelV (fun _ _ _ => vobj 0 false [("A", vstr "m")])])])]

def schC2 : Schema :=
  fun c => if c == 10 then [("B", FieldTag.otherTag (fun _ => [])), ("A", FieldTag.arrayType)] else []

def modelC2 : JVal := vobj 10 true [("B", vstr "x"), ("A", varr [] [])]

/-- Two field validators under the array field `A`, both producing the same
message. -/
def regC3 : Registry :=
  [(30, [("A", [Rule.fieldV false (fun _ => vstr "dup"), Rule.fieldV false (fun _ => vstr "dup")])])]

def schC3 : Schema := fun c => if c == 30 then [("A", FieldTag.arrayType)] else []

def modelC3 : JVal := vobj 30 true [("A", varr [] [])]

/-- Same shape as the C2 scenario; used with the scope `.B`. -/
def regC6 : Registry :=
  [(40, [("B", [Rule.modelV (fun _ _ _ => vobj 0 false [("A", vstr "m")])])])]

def schC6 : Schema :=
  fun c => if c == 40 then [("B", FieldTag.otherTag (fun _ => [])), ("A", FieldTag.arrayType)] else []

def modelC6 : JVal := vobj 40 true [("B", vstr "x"), ("A", varr [] [])]

/-- Two primitive fields, each with an always-failing field rule; used to
show scope filtering over every possible scope. -/
def regC6b : Registry :=
  [(41, [("B", [Rule.fieldV false (fun _ => vstr "e1")]),
         ("C", [Rule.fieldV false (fun _ => vstr "e2")])])]

def schC6b : Schema :=
  fun c =>
    if c == 41 then [("B", FieldTag.otherTag (fun _ => [])), ("C", FieldTag.otherTag (fun _ => []))]
    else []

def modelC6b : JVal := vobj 41 true [("B", vstr "x"), ("C", vstr "y")]

/-- A model rule under the array field `A` returning the number `42` — a
programmer-misuse result that is neither null, a string, nor a mapping. -/
def regC8 : Registry := [(60, [("A", [Rule.modelV (fun _ _ _ => vnum 42)])])]

def schC8 : Schema := fun c => if c == 60 then [("A", FieldTag.arrayType)] else []

def modelC8 : JVal := vobj 60 true [("A", varr [] [])]

/-- A model whose field `N` holds a plain nested record. -/
def modelC10 : JVal := vobj 50 true [("N", vobj 0 false [("z", vnull)])]

/-- A well-formed result graph: a clean leaf list and a validation array
with one clean element node. -/
def graphC7 : JVal :=
  vobj 0 false
    [("B", varr [] []),
     ("A", varr [vobj 0 false [("S", varr [] [])]] [("errors", varr [] [])])]

/-- A concrete required-tagged rule for the registry witness. -/
def ruleC9 : Rule := Rule.fieldV true (fun _ => vnull)

/-- Shape of a result node for an array-valued key as `validate` maintains
it: absent, or an array whose `errors` expando property is absent or itself
an array. -/
def arrNodeOk : Option JVal → Bool
  | none => true
  | some (varr _ props) =>
      (match lookupF props "errors" with
       | none => true
       | some (varr _ _) => true
       | _ => false)
  | some _ => false

/-- The node at `key` carries the error string `s` in its `errors` list. -/
def HasErrStr (st : St) (key : String) (s : String) : Prop :=
  ∃ items props es eps,
    lookupF st key = some (varr items props)
    ∧ lookupF props "errors" = some (varr es eps)
    ∧ vstr s ∈ es

/-!
Specification-side definitions for the scope claim: the accumulated paths at
which a result graph carries errors, mirroring how `validate` builds paths
(`path + key` for a field, `path + key + "[" + i + "]" + "."` for an array
element, `path + key + "."` for a nested node).  A validation array is
recognised by its `errors` property, as `isValid` does; a non-object entry
sitting in an element list (a bare error string) counts as an error of the
array field itself.
-/

mutual
def errPathsFields (path : String) (fs : List (String × JVal)) : List String :=
  match fs with
  | [] => []
  | (k, v) :: rest => errPathsVal path k v ++ errPathsFields path rest
termination_by (sizeOf fs, 0)
decreasing_by
  all_goals simp_wf
  all_goals apply Prod.Lex.left
  all_goals omega

def errPathsVal (path k : String) (v : JVal) : List String :=
  match v with
  | varr items props =>
      (match lookupF props "errors" with
       | some (varr es _) =>
           (if es.isEmpty then [] else [path ++ k]) ++ errPathsItems (path ++ k) 0 items
       | _ => if items.isEmpty then [] else [path ++ k])
  | vobj _ _ fs2 => errPathsFields (path ++ k ++ ".") fs2
  | _ => []
termination_by (sizeOf v, 1)
decreasing_by
  all_goals simp_wf
  all_goals apply Prod.Lex.left
  all_goals try simp
  all_goals omega

def errPathsItems (pathKey : String) (i : Nat) (items : List JVal) : List String :=
  match items with
  | [] => []
  | x :: rest =>
      (match x with
       | vobj _ _ fs2 => errPathsFields (pathKey ++ "[" ++ toString i ++ "]" ++ ".") fs2
       | _ => [pathKey])
      ++ errPathsItems pathKey (i + 1) rest
termination_by (sizeOf items, 2)
decreasing_by
  all_goals simp_wf
  all_goals apply Prod.Lex.left
  all_goals try simp
  all_goals omega
end

/-- Every entry of the list is an error string. -/
def StrList (l : List JVal) : Prop := ∀ x ∈ l, ∃ s, x = vstr s

/-- Shape of the node the validator loop leaves at a key, given the model:
for an array-valued field, an element-free array carrying only a string
`errors` list; otherwise a flat string list without expando properties. -/
def RuleBuiltAt (model : JVal) (st : St) (key : String) : Prop :=
  match lookupF st key with
  | none => True
  | some (varr items props) =>
      if isArrJ (getFieldJ model key) = true then
        items = [] ∧ ∃ es, props = [("errors", varr es [])] ∧ StrList es
      else props = [] ∧ StrList items
  | some _ => False

/-- A rule whose (awaited) result is always an error string or null — the
documented contract of a plain per-field rule. -/
def StrOrNullRule (r : Rule) : Prop :=
  ∀ model ctx orig propValue,
    (∃ t, runRuleJ r model ctx orig propValue = vstr t)
    ∨ runRuleJ r model ctx orig propValue = vnull

/-- All registered rules are string-or-null rules (no partial mappings). -/
def GoodRules (reg : Registry) : Prop :=
  ∀ e ∈ reg, ∀ fe ∈ e.2, ∀ r ∈ fe.2, StrOrNullRule r

/-- Every class's schema lists each field key at most once (io-ts `t.type`
property records). -/
def NodupSchemas (sch : Schema) : Prop :=
  ∀ c, ((sch c).map Prod.fst).Nodup

/-- All error paths of a result state are within the validation scope. -/
def InScopeSt (vpath : Option String) (path : String) (st : St) : Prop :=
  ∀ p ∈ errPathsFields path st, isInValidationPath p vpath = true

/-!
Claim theorems.
-/

/-- C2: the claim states that for every in-scope array-typed schema field the
returned array node has exactly one per-element sub-node per model array
element.  Evaluating `src/index.ts` `validate` on a model whose array field
`A` is empty, with a rule under `B` reporting `{A: "m"}` through a partial
mapping, yields an `A` node whose element list holds the bare string `"m"` —
one entry against a model array of length zero (`add` pushes mapping-routed
errors for array fields into the flat element list).  The node's `errors`
list does exist and defaults to empty, as claimed. -/
theorem C2_array_node_shape_bug :
    validateIdx regC2 schC2 modelC2 vnull vundef none "." =
      vobj 0 false [("A", varr [vstr "m"] [("errors", varr [] [])]), ("B", varr [] [])]
    ∧ (itemsOf (getFieldJ modelC2 "A")).length = 0 := by
  constructor
  · simp [validateIdx, schemaLoopIdx, schemaStepIdx, schemaIfaceIdx, validateArrayIdx,
      validatorLoopIdx, runValidatorsIdx, mergeStepIdx, addIdx, addFieldsIdx, addToArrayIdx,
      addToArrayFieldsIdx, innerAddIdx, decodeErrsIdx, getValidatorsForJ, lookupC, lookupF, setF,
      runRuleJ, getFieldJ, isArrJ, isPrimitiveJ, isRecordJ, isTypedRecordJ, isNullJ, isUndefJ,
      isFalsyOpt, isFalsyJ, memStrict, strictEq, fieldsOf, itemsOf, classOfJ, isInValidationPath,
      hasKeyJ, jsAssign, regC2, schC2, modelC2]
  · rfl

/-- C3: the claim states that every error list, including an array node's
`errors` list, is deduplicated by exact string match.  Evaluating
`src/index.ts` `validate` with two rules under the array field `A` that both
return `"dup"` yields `errors = ["dup", "dup"]`: `innerAdd` deduplicates
against the node's element list (`current.indexOf(res)`) instead of against
`current.errors`, so identical strings accumulate. -/
theorem C3_dedup_bug :
    validateIdx regC3 schC3 modelC3 vnull vundef none "." =
      vobj 0 false [("A", varr [] [("errors", varr [vstr "dup", vstr "dup"] [])])] := by
  simp [validateIdx, schemaLoopIdx, schemaStepIdx, schemaIfaceIdx, validateArrayIdx,
    validatorLoopIdx, runValidatorsIdx, mergeStepIdx, addIdx, addFieldsIdx, addToArrayIdx,
    addToArrayFieldsIdx, innerAddIdx, decodeErrsIdx, getValidatorsForJ, lookupC, lookupF, setF,
    runRuleJ, getFieldJ, isArrJ, isPrimitiveJ, isRecordJ, isTypedRecordJ, isNullJ, isUndefJ,
    isFalsyOpt, isFalsyJ, memStrict, strictEq, fieldsOf, itemsOf, classOfJ, isInValidationPath,
    hasKeyJ, jsAssign, regC3, schC3, modelC3]

/-- C5: the claim states `max(bound)` fails on numbers exactly when
`value > bound` and on length-bearing values exactly when
`length > bound`.  In `src/index.ts` the numeric branch compares
`value < this.max`: `max 5` accepts `10` and rejects `3` (with the message
`must be less than 5`), and arrays are never length-checked at all. -/
theorem C5_max_numeric_bug :
    maxValidateIdx 5 none (vnum 10) = vnull
    ∧ maxValidateIdx 5 none (vnum 3) = vstr "must be less than 5"
    ∧ maxValidateIdx 1 none (varr [vnum 7, vnum 8] []) = vnull := by
  refine ⟨?_, ?_, ?_⟩ <;> rfl

/-- C4 counterexample: the claim states `required()` emits its message for
array-like values of length zero; `src/index.ts`'s `RequiredValidator`
length-checks only strings, so it accepts the empty array (the part_000
variant rejects it, as the claim describes). -/
theorem C4_counterexample :
    requiredValidateIdx "is required" (varr [] []) = vnull
    ∧ requiredValidateP0 "is required" (varr [] []) = vstr "is required"
    ∧ vnull ≠ vstr "is required" := by
  refine ⟨rfl, rfl, ?_⟩
  intro h
  cases h

/-- C4 as amended: `required(message)` of the part_000 variant emits its
message exactly on null/undefined and on length-bearing values (strings,
arrays, numeric-`length` objects) whose length is below one; the
`src/index.ts` variant applies the length check only to strings, and both
return the message or null and nothing else. -/
theorem jsLenLt_iff (v : JVal) (b : Int) :
    jsLenLt v b = true ↔ ∃ len, jsLength v = some len ∧ len < b := by
  unfold jsLenLt
  rcases h : jsLength v with _ | len
  · simp
  · simp

theorem C4_amended : ∀ (msg : String) (v : JVal),
    (requiredValidateP0 msg v = vstr msg ↔
      (v = vnull ∨ v = vundef ∨ ∃ len, jsLength v = some len ∧ len < 1))
    ∧ (requiredValidateP0 msg v = vstr msg ∨ requiredValidateP0 msg v = vnull)
    ∧ (requiredValidateIdx msg v = vstr msg ↔
      (v = vnull ∨ v = vundef ∨ ∃ s, v = vstr s ∧ (s.length : Int) < 1)) := by
  intro msg v
  refine ⟨?_, ?_, ?_⟩
  · unfold requiredValidateP0
    rcases hn : (isNullJ v || isUndefJ v) with _ | _
    · simp only [hn, Bool.false_eq_true, if_false]
      rcases hl : jsLenLt v 1 with _ | _
      · have hx := (jsLenLt_iff v 1).not
        simp only [hl] at hx
        simp only [hl, Bool.false_eq_true, if_false]
        cases v <;> simp_all [isNullJ, isUndefJ] <;> tauto
      · have hx := (jsLenLt_iff v 1).mp hl
        simp only [hl, if_true]
        cases v <;> simp_all [isNullJ, isUndefJ]
    · simp only [hn, if_true]
      cases v <;> simp_all [isNullJ, isUndefJ]
  · unfold requiredValidateP0
    split
    · left; rfl
    · split
      · left; rfl
      · right; rfl
  · cases v with
    | vstr s =>
        simp only [requiredValidateIdx, isNullJ, isUndefJ]
        by_cases h : (s.length : Int) < 1
        · simp only [h, if_true]
          simp
          omega
        · simp only [h, if_false]
          simp
          omega
    | _ => simp [requiredValidateIdx, isNullJ, isUndefJ]

/-- C1 counterexample: the claim states that an error string produced via a
partial mapping keyed by the rule's own array field is appended to the array
node's `errors` list.  In `src/index.ts`, when the mapping's key equals the
field the rule is registered under, `innerAdd(key, r)` is passed the whole
mapping object rather than the string: evaluating on such a rule leaves
`errors` holding the mapping record, and the string `"m"` itself appears in
no error list. -/
theorem C1_counterexample :
    validateIdx regC1 schC1 modelC1 vnull vundef none "." =
      vobj 0 false [("A", varr [] [("errors", varr [vobj 0 false [("A", vstr "m")]] [])])]
    ∧ (vstr "m") ∉ [vobj 0 false [("A", vstr "m")]] := by
  constructor
  · simp [validateIdx, schemaLoopIdx, schemaStepIdx, schemaIfaceIdx, validateArrayIdx,
      validatorLoopIdx, runValidatorsIdx, mergeStepIdx, addIdx, addFieldsIdx, addToArrayIdx,
      addToArrayFieldsIdx, innerAddIdx, decodeErrsIdx, getValidatorsForJ, lookupC, lookupF, setF,
      runRuleJ, getFieldJ, isArrJ, isPrimitiveJ, isRecordJ, isTypedRecordJ, isNullJ, isUndefJ,
      isFalsyOpt, isFalsyJ, memStrict, strictEq, fieldsOf, itemsOf, classOfJ, isInValidationPath,
      hasKeyJ, jsAssign, regC1, schC1, modelC1]
  · simp

/-- C6 counterexample: the claim states no error appears for any field whose
path fails the prefix relationship with the scope.  Validating with scope
`.B`, a rule under the in-scope field `B` reporting `{A: "m"}` deposits the
error on the out-of-scope field `A` (the merge closures perform no scope
check), and the out-of-scope `A` node is even left as a bare flat list. -/
theorem C6_counterexample :
    validateIdx regC6 schC6 modelC6 vnull vundef (some ".B") "." =
      vobj 0 false [("A", varr [vstr "m"] []), ("B", varr [] [])]
    ∧ isInValidationPath ".A" (some ".B") = false := by
  have hB : isInValidationPath ".B" (some ".B") = true := by decide
  have hA : isInValidationPath ".A" (some ".B") = false := by decide
  constructor
  · simp [validateIdx, schemaLoopIdx, schemaStepIdx, schemaIfaceIdx, validateArrayIdx,
      validatorLoopIdx, runValidatorsIdx, mergeStepIdx, addIdx, addFieldsIdx, addToArrayIdx,
      addToArrayFieldsIdx, innerAddIdx, decodeErrsIdx, getValidatorsForJ, lookupC, lookupF, setF,
      runRuleJ, getFieldJ, isArrJ, isPrimitiveJ, isRecordJ, isTypedRecordJ, isNullJ, isUndefJ,
      isFalsyOpt, isFalsyJ, memStrict, strictEq, fieldsOf, itemsOf, classOfJ,
      hasKeyJ, jsAssign, regC6, schC6, modelC6, hB, hA]
  · exact hA

/-- C10: in `src/index.ts` `validate`, a rule result for a field whose current
value is a non-primitive, non-array record is merged only when the result is
itself a (typed) record; a plain error string is silently discarded — the
merge step leaves the accumulated result untouched, so the string appears
nowhere in the returned error graph. -/
theorem C10_string_discarded : ∀ (model : JVal) (key : String) (s : String) (st : St),
    isPrimitiveJ (getFieldJ model key) = false →
    isArrJ (getFieldJ model key) = false →
    mergeStepIdx model key (vstr s) st = st := by
  intro model key s st h1 h2
  simp [mergeStepIdx, h1, h2, isTypedRecordJ, isRecordJ]

/-- Witness for C10 at a concrete model whose field `N` holds a nested
record: the merge step discards the string result. -/
theorem C10_string_discarded_witness :
    isPrimitiveJ (getFieldJ modelC10 "N") = false
    ∧ isArrJ (getFieldJ modelC10 "N") = false
    ∧ mergeStepIdx modelC10 "N" (vstr "lost") [] = [] := by
  refine ⟨by decide, by decide, ?_⟩
  exact C10_string_discarded modelC10 "N" "lost" [] (by decide) (by decide)

theorem innerAddP0_str_ok (st : St) (key : String) (s : String) :
    ∃ st2, innerAddP0 st key (vstr s) = Except.ok st2 := by
  unfold innerAddP0
  repeat' split
  all_goals try exact ⟨_, rfl⟩
  all_goals try simp_all [isNullJ]
  all_goals repeat' split
  all_goals first
    | exact ⟨_, rfl⟩
    | simp_all [isNullJ]

theorem mergeP0_ok : ∀ (n : Nat),
    (∀ model key fs st, sizeOf fs ≤ n → isArrJ (getFieldJ model key) = true →
        ∃ st2, addToArrayFieldsP0 model key fs st = Except.ok st2)
    ∧ (∀ model fs st, sizeOf fs ≤ n → ∃ st2, addFieldsP0 model fs st = Except.ok st2)
    ∧ (∀ model key res st, sizeOf res ≤ n → isArrJ (getFieldJ model key) = true →
        ∃ st2, addToArrayP0 model key res st = Except.ok st2)
    ∧ (∀ model key res st, sizeOf res ≤ n → ∃ st2, addP0 model key res st = Except.ok st2) := by
  intro n
  induction n using Nat.strong_induction_on with
  | _ n ih =>
    have hTAF : ∀ model key fs st, sizeOf fs ≤ n → isArrJ (getFieldJ model key) = true →
        ∃ st2, addToArrayFieldsP0 model key fs st = Except.ok st2 := by
      intro model key fs st hn hkey
      match fs with
      | [] => exact ⟨st, by simp [addToArrayFieldsP0]⟩
      | (k, v) :: rest =>
          have hv : sizeOf v < n := by
            simp only [List.cons.sizeOf_spec, Prod.mk.sizeOf_spec] at hn
            omega
          have hrest : sizeOf rest < n := by
            simp only [List.cons.sizeOf_spec, Prod.mk.sizeOf_spec] at hn
            omega
          rcases hk : isArrJ (getFieldJ model k) with _ | _
          · rcases hke : (k == key) with _ | _
            · obtain ⟨st1, h1⟩ := (ih (sizeOf v) hv).2.2.2 model k v st (le_refl _)
              obtain ⟨st2, h2⟩ :=
                (ih (sizeOf rest) hrest).1 model key rest st1 (le_refl _) hkey
              exact ⟨st2, by simp [addToArrayFieldsP0, hk, hke, h1, h2]⟩
            · have hkk : k = key := by
                have := eq_of_beq hke
                exact this
              subst hkk
              rw [hk] at hkey
              cases hkey
          · obtain ⟨st1, h1⟩ := (ih (sizeOf v) hv).2.2.1 model k v st (le_refl _) hk
            obtain ⟨st2, h2⟩ :=
              (ih (sizeOf rest) hrest).1 model key rest st1 (le_refl _) hkey
            exact ⟨st2, by simp [addToArrayFieldsP0, hk, h1, h2]⟩
    have hAF : ∀ model fs st, sizeOf fs ≤ n → ∃ st2, addFieldsP0 model fs st = Except.ok st2 := by
      intro model fs st hn
      match fs with
      | [] => exact ⟨st, by simp [addFieldsP0]⟩
      | (k, v) :: rest =>
          have hv : sizeOf v < n := by
            simp only [List.cons.sizeOf_spec, Prod.mk.sizeOf_spec] at hn
            omega
          have hrest : sizeOf rest < n := by
            simp only [List.cons.sizeOf_spec, Prod.mk.sizeOf_spec] at hn
            omega
          obtain ⟨st1, h1⟩ := (ih (sizeOf v) hv).2.2.2 model k v st (le_refl _)
          obtain ⟨st2, h2⟩ := (ih (sizeOf rest) hrest).2.1 model rest st1 (le_refl _)
          exact ⟨st2, by simp [addFieldsP0, h1, h2]⟩
    have hTA : ∀ model key res st, sizeOf res ≤ n → isArrJ (getFieldJ model key) = true →
        ∃ st2, addToArrayP0 model key res st = Except.ok st2 := by
      intro model key res st hn hkey
      rcases h0 : isNullJ res with _ | _
      · rcases h1 : isStrJ res with _ | _
        · rcases h2 : isRecordJ res with _ | _
          · exact ⟨st, by simp [addToArrayP0, h0, h1, h2]⟩
          · have hflt : sizeOf (fieldsOf res) < n := by
              cases res <;> simp_all [isRecordJ, fieldsOf] <;> omega
            obtain ⟨st2, hst2⟩ :=
              (ih (sizeOf (fieldsOf res)) hflt).1 model key (fieldsOf res) st (le_refl _) hkey
            exact ⟨st2, by simp [addToArrayP0, h0, h1, h2, hst2]⟩
        · obtain ⟨s, rfl⟩ : ∃ s, res = vstr s := by
            cases res <;> simp_all [isStrJ]
          obtain ⟨st2, hst2⟩ := innerAddP0_str_ok st key s
          exact ⟨st2, by simp [addToArrayP0, isNullJ, isStrJ, hst2]⟩
      · have : res = vnull := by cases res <;> simp_all [isNullJ]
        subst this
        exact ⟨st, by simp [addToArrayP0, isNullJ]⟩
    refine ⟨hTAF, hAF, hTA, ?_⟩
    intro model key res st hn
    rcases hk : isArrJ (getFieldJ model key) with _ | _
    · rcases hr : isRecordJ res with _ | _
      · simp only [addP0, hk, hr, Bool.false_eq_true, if_false]
        split
        · split
          · exact ⟨_, rfl⟩
          · exact ⟨_, rfl⟩
        · exact ⟨_, rfl⟩
      · have hflt : sizeOf (fieldsOf res) < n := by
          cases res <;> simp_all [isRecordJ, fieldsOf] <;> omega
        obtain ⟨st2, hst2⟩ := (ih (sizeOf (fieldsOf res)) hflt).2.1 model (fieldsOf res) st (le_refl _)
        exact ⟨st2, by simp [addP0, hk, hr, hst2]⟩
    · obtain ⟨st2, hst2⟩ := hTA model key res st hn hk
      exact ⟨st2, by simp [addP0, hk, hst2]⟩

/-- C8: the claim states that a model rule result that is neither null, a
string, nor a valid partial mapping makes `validate` throw (fail fast).  In
part_000 the merge step never throws for any rule result (the
`Not a valid error string!` throw is unreachable: `innerAdd` only ever
receives strings), and evaluating `validate` with a rule under the array
field `A` returning the number `42` completes normally with an empty result
— the bogus result is silently swallowed, not surfaced. -/
theorem C8_no_throw_eval :
    validateP0 regC8 schC8 modelC8 vnull vundef none "." =
      Except.ok (vobj 0 false [("A", varr [] [("errors", varr [] [])])])
    ∧ ∀ model key res st, ∃ st2, addP0 model key res st = Except.ok st2 := by
  constructor
  · simp [validateP0, schemaLoopP0, schemaStepP0, schemaIfaceP0, validateArrayP0,
      validatorLoopP0, runValidatorsP0, addP0, addFieldsP0, addToArrayP0, addToArrayFieldsP0,
      innerAddP0, decodeErrsP0, getValidatorsForJ, lookupC, lookupF, setF, runRuleJ, getFieldJ,
      isArrJ, isPrimitiveJ, isRecordJ, isTypedRecordJ, isNullJ, isUndefJ, isStrJ, isFalsyOpt,
      isFalsyJ, memStrict, strictEq, fieldsOf, itemsOf, classOfJ, isInValidationPath, hasKeyJ,
      jsAssign, regC8, schC8, modelC8]
  · intro model key res st
    exact (mergeP0_ok (sizeOf res)).2.2.2 model key res st (le_refl _)

theorem lookupF_setF_self {α : Type} (l : List (String × α)) (k : String) (v : α) :
    lookupF (setF l k v) k = some v := by
  induction l with
  | nil => simp [setF, lookupF]
  | cons hd tl ih =>
      obtain ⟨a, b⟩ := hd
      rcases ha : (a == k) with _ | _
      · simp [setF, lookupF, ha, ih]
      · simp [setF, lookupF, ha]

theorem lookupF_setF_of_ne {α : Type} (l : List (String × α)) (k k2 : String) (v : α)
    (h : (k == k2) = false) : lookupF (setF l k v) k2 = lookupF l k2 := by
  induction l with
  | nil => simp [setF, lookupF, h]
  | cons hd tl ih =>
      obtain ⟨a, b⟩ := hd
      rcases ha : (a == k) with _ | _
      · simp [setF, lookupF, ha, ih]
      · have hak : a = k := eq_of_beq ha
        subst hak
        simp [setF, lookupF, ha, h]

theorem lookupC_setC_self {α : Type} (l : List (Nat × α)) (k : Nat) (v : α) :
    lookupC (setC l k v) k = some v := by
  induction l with
  | nil => simp [setC, lookupC]
  | cons hd tl ih =>
      obtain ⟨a, b⟩ := hd
      rcases ha : (a == k) with _ | _
      · simp [setC, lookupC, ha, ih]
      · simp [setC, lookupC, ha]

theorem lookupC_setC_of_ne {α : Type} (l : List (Nat × α)) (k k2 : Nat) (v : α)
    (h : (k == k2) = false) : lookupC (setC l k v) k2 = lookupC l k2 := by
  induction l with
  | nil => simp [setC, lookupC, h]
  | cons hd tl ih =>
      obtain ⟨a, b⟩ := hd
      rcases ha : (a == k) with _ | _
      · simp [setC, lookupC, ha, ih]
      · have hak : a = k := eq_of_beq ha
        subst hak
        simp [setC, lookupC, ha, h]

theorem registerFold_lookup (m : List (String × RuleVal)) :
    ∀ (cm : List (String × List Rule)) (f : String),
      (lookupF (registerFold cm m) f).getD [] =
        (lookupF cm f).getD []
          ++ ((m.filter (fun e => e.1 == f)).map (fun e => ruleValList e.2)).join := by
  induction m with
  | nil => intro cm f; simp [registerFold]
  | cons hd tl ih =>
      obtain ⟨prop, rv⟩ := hd
      intro cm f
      simp only [registerFold]
      rw [ih]
      rcases hp : (prop == f) with _ | _
      · rw [lookupF_setF_of_ne _ _ _ _ hp]
        simp [List.filter_cons, hp]
      · have hpf : prop = f := eq_of_beq hp
        subst hpf
        rw [lookupF_setF_self]
        simp [List.filter_cons, hp]

/-- C9: re-registering a class appends the new mapping's normalized rule
lists to the end of each affected field's existing list (never replacing
them), leaves fields not named in the mapping unchanged (their lookup result
is reproduced exactly, with an empty contribution), and leaves every other
class's entry untouched. -/
theorem C9_register_appends : ∀ (reg : Registry) (k : Nat) (m : List (String × RuleVal)) (f : String),
    ((lookupF (getValidatorsForJ (registerJ reg k m) k) f).getD []
      = (lookupF (getValidatorsForJ reg k) f).getD []
        ++ ((m.filter (fun e => e.1 == f)).map (fun e => ruleValList e.2)).join)
    ∧ ∀ k2, k2 ≠ k → getValidatorsForJ (registerJ reg k m) k2 = getValidatorsForJ reg k2 := by
  intro reg k m f
  constructor
  · unfold registerJ getValidatorsForJ
    rw [lookupC_setC_self]
    simp only [Option.getD_some]
    exact registerFold_lookup m (getValidatorsForJ reg k) f
  · intro k2 hne
    unfold registerJ getValidatorsForJ
    rw [lookupC_setC_of_ne]
    exact beq_eq_false_iff_ne.mpr (Ne.symm hne)

/-- Witness for C9: registering one required rule for field `A` of class 5
on an empty registry appends it to the (empty) existing list, and class 6 is
untouched. -/
theorem C9_register_appends_witness :
    ((lookupF (getValidatorsForJ (registerJ [] 5 [("A", RuleVal.one ruleC9)]) 5) "A").getD []
      = (lookupF (getValidatorsForJ ([] : Registry) 5) "A").getD []
        ++ ((([("A", RuleVal.one ruleC9)].filter (fun e => e.1 == "A")).map
              (fun e => ruleValList e.2)).join))
    ∧ getValidatorsForJ (registerJ [] 5 [("A", RuleVal.one ruleC9)]) 6
        = getValidatorsForJ ([] : Registry) 6 := by
  refine ⟨(C9_register_appends [] 5 [("A", RuleVal.one ruleC9)] "A").1, ?_⟩
  exact (C9_register_appends [] 5 [("A", RuleVal.one ruleC9)] "A").2 6 (by decide)

theorem isValidEntry_eq_isValid_vobj (c : Nat) (t : Bool) (fs : List (String × JVal)) :
    isValidEntryJ (vobj c t fs) = isValidJ (vobj c t fs) := by
  cases fs with
  | nil => simp [isValidEntryJ, isValidJ, isValidFieldsJ, keysNonemptyJ]
  | cons hd tl => simp [isValidEntryJ, isValidJ, keysNonemptyJ]

theorem isValidItems_eq (items : List JVal)
    (h : ∀ x ∈ items, isValidJ x = specAllErrorsEmpty x) :
    isValidItemsJ items = specItemsEmpty items := by
  induction items with
  | nil => simp [isValidItemsJ, specItemsEmpty]
  | cons x rest ih =>
      rw [isValidItemsJ, specItemsEmpty, h x (by simp),
        ih (fun y hy => h y (by simp [hy]))]

theorem isValidFields_eq (fs : List (String × JVal))
    (h : ∀ p ∈ fs, isValidEntryJ p.2 = specAllErrorsEmpty p.2) :
    isValidFieldsJ fs = specFieldsEmpty fs := by
  induction fs with
  | nil => simp [isValidFieldsJ, specFieldsEmpty]
  | cons p rest ih =>
      obtain ⟨k, v⟩ := p
      rw [isValidFieldsJ, specFieldsEmpty, h (k, v) (by simp),
        ih (fun q hq => h q (by simp [hq]))]

theorem wf_entry_eq (v : JVal) (h : WFNode v) :
    isValidEntryJ v = specAllErrorsEmpty v := by
  induction h with
  | leaf items hstr => simp [isValidEntryJ, specAllErrorsEmpty, lookupF]
  | arrNode items es hes hobjs hitems ih =>
      have hx : ∀ x ∈ items, isValidJ x = specAllErrorsEmpty x := by
        intro x hxm
        obtain ⟨c, t, fs2, rfl⟩ := hobjs x hxm
        rw [← isValidEntry_eq_isValid_vobj]
        exact ih _ hxm
      simp only [isValidEntryJ, specAllErrorsEmpty, lookupF]
      rw [isValidItems_eq items hx]
  | node c t fs hwf ih =>
      rw [isValidEntry_eq_isValid_vobj]
      have hfs : isValidFieldsJ fs = specFieldsEmpty fs :=
        isValidFields_eq fs (fun p hp => ih p hp)
      simp [isValidJ, specAllErrorsEmpty, hfs]

/-- C7: over well-formed result graphs (leaf string lists, validation arrays
with per-element sub-nodes and a string `errors` list, nested nodes),
`isValid` returns true if and only if every leaf error list is empty, every
array node's own `errors` list is empty, every array element sub-node is
recursively valid, and every nested sub-node is recursively valid (the
specification-side predicate `specAllErrorsEmpty`). -/
theorem C7_isValid_iff : ∀ (c : Nat) (t : Bool) (fs : List (String × JVal)),
    (∀ p ∈ fs, WFNode p.2) →
    (isValidJ (vobj c t fs) = true ↔ specAllErrorsEmpty (vobj c t fs) = true) := by
  intro c t fs h
  have hfs : isValidFieldsJ fs = specFieldsEmpty fs :=
    isValidFields_eq fs (fun p hp => wf_entry_eq p.2 (h p hp))
  simp [isValidJ, specAllErrorsEmpty, hfs]

/-- Witness for C7 on a concrete well-formed graph (one clean leaf list and
one validation array with a clean element node). -/
theorem C7_isValid_iff_witness :
    isValidJ graphC7 = true ↔ specAllErrorsEmpty graphC7 = true := by
  have hwf : ∀ p ∈ [("B", varr [] []),
      ("A", varr [vobj 0 false [("S", varr [] [])]] [("errors", varr [] [])])], WFNode p.2 := by
    intro p hp
    simp only [List.mem_cons, List.not_mem_nil, or_false] at hp
    rcases hp with h | h
    · subst h
      exact WFNode.leaf [] (by simp)
    · subst h
      refine WFNode.arrNode _ [] (by simp) ?_ ?_
      · intro v hv
        simp only [List.mem_singleton] at hv
        subst hv
        exact ⟨0, false, _, rfl⟩
      · intro v hv
        simp only [List.mem_singleton] at hv
        subst hv
        refine WFNode.node 0 false _ ?_
        intro q hq
        simp only [List.mem_singleton] at hq
        subst hq
        exact WFNode.leaf [] (by simp)
  exact C7_isValid_iff 0 false _ hwf

theorem strictEq_vstr (x : JVal) (t : String) : strictEq x (vstr t) = true ↔ x = vstr t := by
  cases x <;> simp [strictEq]

theorem memStrict_vstr (es : List JVal) (t : String) :
    memStrict es (vstr t) = true ↔ vstr t ∈ es := by
  unfold memStrict
  rw [List.any_eq_true]
  constructor
  · rintro ⟨x, hx, hs⟩
    rw [strictEq_vstr] at hs
    rwa [hs] at hx
  · intro h
    exact ⟨vstr t, h, (strictEq_vstr _ _).mpr rfl⟩

theorem lookupF_mem {α : Type} (l : List (String × α)) (k : String) (v : α)
    (h : lookupF l k = some v) : (k, v) ∈ l := by
  induction l with
  | nil => simp [lookupF] at h
  | cons hd tl ih =>
      obtain ⟨a, b⟩ := hd
      rcases ha : (a == k) with _ | _
      · simp only [lookupF, ha, Bool.false_eq_true, if_false] at h
        exact List.mem_cons_of_mem _ (ih h)
      · simp only [lookupF, ha, if_true] at h
        have hak : a = k := eq_of_beq ha
        subst hak
        cases h
        exact List.mem_cons_self _ _

theorem arrNodeOk_dest (w : JVal) (h : arrNodeOk (some w) = true) :
    ∃ items props, w = varr items props
      ∧ (lookupF props "errors" = none
        ∨ ∃ es eps, lookupF props "errors" = some (varr es eps)) := by
  cases w with
  | varr items props =>
      refine ⟨items, props, rfl, ?_⟩
      simp only [arrNodeOk] at h
      rcases he : lookupF props "errors" with _ | v
      · exact Or.inl rfl
      · rw [he] at h
        cases v <;> simp only at h <;> first
          | exact Or.inr ⟨_, _, rfl⟩
          | cases h
  | vnull => simp [arrNodeOk] at h
  | vundef => simp [arrNodeOk] at h
  | vbool b => simp [arrNodeOk] at h
  | vnum n => simp [arrNodeOk] at h
  | vstr t => simp [arrNodeOk] at h
  | vdate => simp [arrNodeOk] at h
  | vobj c ty fs => simp [arrNodeOk] at h

theorem innerAddP0_other (st : St) (k : String) (v : JVal) (key : String)
    (hne : (k == key) = false) :
    ∀ st2, innerAddP0 st k v = Except.ok st2 → lookupF st2 key = lookupF st key := by
  intro st2 h
  simp only [innerAddP0] at h
  repeat' split at h
  all_goals first
    | (injection h with h2
       subst h2
       simp [lookupF_setF_of_ne _ _ _ _ hne])
    | cases h

theorem addToArrayP0_strnull_other (model : JVal) (k : String) (v : JVal) (st : St) (key : String)
    (hne : (k == key) = false) (hv : (∃ t, v = vstr t) ∨ v = vnull) :
    ∃ st2, addToArrayP0 model k v st = Except.ok st2 ∧ lookupF st2 key = lookupF st key := by
  rcases hv with ⟨t, rfl⟩ | rfl
  · obtain ⟨st2, h2⟩ := innerAddP0_str_ok st k t
    refine ⟨st2, ?_, innerAddP0_other st k (vstr t) key hne st2 h2⟩
    simp [addToArrayP0, isNullJ, isStrJ, h2]
  · exact ⟨st, by simp [addToArrayP0, isNullJ], rfl⟩

theorem addP0_strnull_other (model : JVal) (k : String) (v : JVal) (st : St) (key : String)
    (hne : (k == key) = false) (hv : (∃ t, v = vstr t) ∨ v = vnull) :
    ∃ st2, addP0 model k v st = Except.ok st2 ∧ lookupF st2 key = lookupF st key := by
  rcases hk : isArrJ (getFieldJ model k) with _ | _
  · have hrec : isRecordJ v = false := by
      rcases hv with ⟨t, rfl⟩ | rfl <;> rfl
    rcases hcur : (lookupF st k).getD (varr [] []) with _ | _ | _ | _ | _ | _ | ⟨items, props⟩ | _
    all_goals try (refine ⟨st, ?_, rfl⟩; simp [addP0, hk, hrec, hcur]; done)
    rcases hd : (!isNullJ v && !memStrict items v) with _ | _
    · refine ⟨setF st k (varr items props), ?_, by simp [lookupF_setF_of_ne _ _ _ _ hne]⟩
      simp [addP0, hk, hrec, hcur, hd]
    · refine ⟨setF st k (varr (items ++ [v]) props), ?_,
        by simp [lookupF_setF_of_ne _ _ _ _ hne]⟩
      simp [addP0, hk, hrec, hcur, hd]
  · obtain ⟨st2, h2, hl⟩ := addToArrayP0_strnull_other model k v st key hne hv
    exact ⟨st2, by simp [addP0, hk, h2], hl⟩

theorem innerAddP0_insert (st : St) (key t : String)
    (hA : arrNodeOk (lookupF st key) = true) :
    ∃ st2, innerAddP0 st key (vstr t) = Except.ok st2
      ∧ HasErrStr st2 key t
      ∧ arrNodeOk (lookupF st2 key) = true
      ∧ (∀ s, HasErrStr st key s → HasErrStr st2 key s) := by
  rcases hc : lookupF st key with _ | w
  · refine ⟨setF (setF st key (varr [] [("errors", varr [] [])])) key
      (varr [] [("errors", varr [vstr t] [])]), ?_, ?_, ?_, ?_⟩
    · simp [innerAddP0, hc, isFalsyOpt, isFalsyJ, lookupF, setF, isNullJ, memStrict]
    · exact ⟨[], [("errors", varr [vstr t] [])], [vstr t], [],
        lookupF_setF_self _ _ _, by simp [lookupF], by simp⟩
    · rw [lookupF_setF_self]
      simp [arrNodeOk, lookupF]
    · intro s hs
      exfalso
      obtain ⟨i2, p2, es2, eps2, hl, _, _⟩ := hs
      rw [hc] at hl
      cases hl
  · rw [hc] at hA
    obtain ⟨items, props, rfl, herr⟩ := arrNodeOk_dest w hA
    rcases herr with hnone | ⟨es, eps, hsome⟩
    · refine ⟨setF (setF st key (varr items (setF props "errors" (varr [] [])))) key
        (varr items (setF (setF props "errors" (varr [] [])) "errors" (varr [vstr t] []))),
        ?_, ?_, ?_, ?_⟩
      · simp [innerAddP0, hc, isFalsyOpt, hnone, isNullJ, memStrict, lookupF_setF_self]
      · exact ⟨items, _, [vstr t], [], lookupF_setF_self _ _ _, lookupF_setF_self _ _ _,
          by simp⟩
      · rw [lookupF_setF_self]
        simp [arrNodeOk, lookupF_setF_self]
      · intro s hs
        exfalso
        obtain ⟨i2, p2, es2, eps2, hl, he, _⟩ := hs
        rw [hc] at hl
        have h1 := Option.some.inj hl
        cases h1
        rw [hnone] at he
        cases he
    · rcases hm : memStrict es (vstr t) with _ | _
      · refine ⟨setF (setF st key (varr items props)) key
          (varr items (setF props "errors" (varr (es ++ [vstr t]) eps))), ?_, ?_, ?_, ?_⟩
        · simp [innerAddP0, hc, isFalsyOpt, hsome, isFalsyJ, isNullJ, hm]
        · exact ⟨items, _, es ++ [vstr t], eps, lookupF_setF_self _ _ _,
            lookupF_setF_self _ _ _, by simp⟩
        · rw [lookupF_setF_self]
          simp [arrNodeOk, lookupF_setF_self]
        · intro s hs
          obtain ⟨i2, p2, es2, eps2, hl, he, hmem⟩ := hs
          rw [hc] at hl
          have h1 := Option.some.inj hl
          cases h1
          rw [hsome] at he
          have h2 := Option.some.inj he
          cases h2
          exact ⟨items, _, es ++ [vstr t], eps, lookupF_setF_self _ _ _,
            lookupF_setF_self _ _ _, by simp [hmem]⟩
      · refine ⟨setF st key (varr items props), ?_, ?_, ?_, ?_⟩
        · simp [innerAddP0, hc, isFalsyOpt, hsome, isFalsyJ, isNullJ, hm]
        · exact ⟨items, props, es, eps, lookupF_setF_self _ _ _, hsome,
            (memStrict_vstr es t).mp hm⟩
        · rw [lookupF_setF_self]
          simp [arrNodeOk, hsome]
        · intro s hs
          obtain ⟨i2, p2, es2, eps2, hl, he, hmem⟩ := hs
          rw [hc] at hl
          have h1 := Option.some.inj hl
          cases h1
          exact ⟨items, props, es2, eps2, lookupF_setF_self _ _ _, he, hmem⟩

theorem HasErrStr_of_eq {st st1 : St} {key s : String}
    (h : lookupF st1 key = lookupF st key) : HasErrStr st key s → HasErrStr st1 key s := by
  rintro ⟨i, p, es, eps, h1, h2, h3⟩
  exact ⟨i, p, es, eps, by rw [h, h1], h2, h3⟩

theorem addToArrayP0_strnull_at_key (model : JVal) (key : String) (v : JVal) (st : St)
    (hv : (∃ t, v = vstr t) ∨ v = vnull)
    (hA : arrNodeOk (lookupF st key) = true) :
    ∃ st2, addToArrayP0 model key v st = Except.ok st2
      ∧ arrNodeOk (lookupF st2 key) = true
      ∧ (∀ s, HasErrStr st key s → HasErrStr st2 key s)
      ∧ (∀ t, v = vstr t → HasErrStr st2 key t) := by
  rcases hv with ⟨t, rfl⟩ | rfl
  · obtain ⟨st2, h2, hh, ha, hp⟩ := innerAddP0_insert st key t hA
    refine ⟨st2, by simp [addToArrayP0, isNullJ, isStrJ, h2], ha, hp, ?_⟩
    intro t2 ht2
    injection ht2 with h
    subst h
    exact hh
  · refine ⟨st, by simp [addToArrayP0, isNullJ], hA, fun s h => h, ?_⟩
    intro t h
    cases h

theorem toArrFieldsP0_run (model : JVal) (key : String) (s : String) :
    ∀ (fs : List (String × JVal)) (st : St),
      isArrJ (getFieldJ model key) = true →
      (∀ p ∈ fs, (∃ t, p.2 = vstr t) ∨ p.2 = vnull) →
      arrNodeOk (lookupF st key) = true →
      ∃ st2, addToArrayFieldsP0 model key fs st = Except.ok st2
        ∧ arrNodeOk (lookupF st2 key) = true
        ∧ (∀ s2, HasErrStr st key s2 → HasErrStr st2 key s2)
        ∧ ((key, vstr s) ∈ fs → HasErrStr st2 key s) := by
  intro fs
  induction fs with
  | nil =>
      intro st hk _ hA
      exact ⟨st, by simp [addToArrayFieldsP0], hA, fun _ h => h, by simp⟩
  | cons hd rest ih =>
      obtain ⟨k, v⟩ := hd
      intro st hk hvals hA
      have hv : (∃ t, v = vstr t) ∨ v = vnull := hvals (k, v) (by simp)
      have hvrest : ∀ p ∈ rest, (∃ t, p.2 = vstr t) ∨ p.2 = vnull :=
        fun p hp => hvals p (by simp [hp])
      rcases hak : isArrJ (getFieldJ model k) with _ | _
      · rcases hke : (k == key) with _ | _
        · obtain ⟨st1, h1, hl1⟩ := addP0_strnull_other model k v st key hke hv
          have hA1 : arrNodeOk (lookupF st1 key) = true := by rw [hl1]; exact hA
          obtain ⟨st2, h2, ha2, hp2, he2⟩ := ih st1 hk hvrest hA1
          refine ⟨st2, ?_, ha2, ?_, ?_⟩
          · simp [addToArrayFieldsP0, hak, hke, h1, h2]
          · intro s2 hs2
            exact hp2 s2 (HasErrStr_of_eq hl1 hs2)
          · intro hmem
            rcases List.mem_cons.mp hmem with hhd | hrest
            · exfalso
              have hkk : key = k := congrArg Prod.fst hhd
              rw [hkk] at hke
              simp at hke
            · exact he2 hrest
        · exfalso
          have hkk : k = key := eq_of_beq hke
          subst hkk
          rw [hak] at hk
          cases hk
      · rcases hke : (k == key) with _ | _
        · obtain ⟨st1, h1, hl1⟩ := addToArrayP0_strnull_other model k v st key hke hv
          have hA1 : arrNodeOk (lookupF st1 key) = true := by rw [hl1]; exact hA
          obtain ⟨st2, h2, ha2, hp2, he2⟩ := ih st1 hk hvrest hA1
          refine ⟨st2, ?_, ha2, ?_, ?_⟩
          · simp [addToArrayFieldsP0, hak, h1, h2]
          · intro s2 hs2
            exact hp2 s2 (HasErrStr_of_eq hl1 hs2)
          · intro hmem
            rcases List.mem_cons.mp hmem with hhd | hrest
            · exfalso
              have hkk : key = k := congrArg Prod.fst hhd
              rw [hkk] at hke
              simp at hke
            · exact he2 hrest
        · have hkk : k = key := eq_of_beq hke
          subst hkk
          obtain ⟨st1, h1, ha1, hp1, hins⟩ := addToArrayP0_strnull_at_key model k v st hv hA
          obtain ⟨st2, h2, ha2, hp2, he2⟩ := ih st1 hk hvrest ha1
          refine ⟨st2, ?_, ha2, ?_, ?_⟩
          · simp [addToArrayFieldsP0, hak, h1, h2]
          · intro s2 hs2
            exact hp2 s2 (hp1 s2 hs2)
          · intro hmem
            rcases List.mem_cons.mp hmem with hhd | hrest
            · have hv2 : vstr s = v := congrArg Prod.snd hhd
              exact hp2 s (hins s hv2.symm)
            · exact he2 hrest

/-- C1 as amended: in the part_000 variant, a rule registered under an array
field that produces an error string — directly, or through a partial mapping
keyed by that same field whose values are strings or nulls — always ends
with that string in the array node's own `errors` list (never in a bare flat
list), assuming the node at that key has the shape `validate` maintains
(absent, or an array whose `errors` property is absent or an array). -/
theorem C1_amended : ∀ (model : JVal) (key : String) (res : JVal) (st : St) (s : String),
    isArrJ (getFieldJ model key) = true →
    arrNodeOk (lookupF st key) = true →
    (res = vstr s ∨
      (isRecordJ res = true ∧ lookupF (fieldsOf res) key = some (vstr s)
        ∧ ∀ p ∈ fieldsOf res, (∃ t, p.2 = vstr t) ∨ p.2 = vnull)) →
    ∃ st2, addP0 model key res st = Except.ok st2 ∧ HasErrStr st2 key s := by
  intro model key res st s hk hA hcase
  rcases hcase with rfl | ⟨hrec, hlk, hvals⟩
  · obtain ⟨st2, h2, hh, _, _⟩ := innerAddP0_insert st key s hA
    exact ⟨st2, by simp [addP0, hk, addToArrayP0, isNullJ, isStrJ, h2], hh⟩
  · have hmem : (key, vstr s) ∈ fieldsOf res := lookupF_mem _ _ _ hlk
    obtain ⟨st2, h2, _, _, he⟩ := toArrFieldsP0_run model key s (fieldsOf res) st hk hvals hA
    refine ⟨st2, ?_, he hmem⟩
    have hnn : isNullJ res = false := by cases res <;> simp_all [isRecordJ, isNullJ]
    have hns : isStrJ res = false := by cases res <;> simp_all [isRecordJ, isStrJ]
    simp [addP0, hk, addToArrayP0, hnn, hns, hrec, h2]

/-- Witness for C1's amended theorem: the rule scenario of the
counterexample, run through the part_000 merge — the string lands in the
`errors` list of the array field's node. -/
theorem C1_amended_witness :
    ∃ st2, addP0 modelC1 "A" (vobj 0 false [("A", vstr "m")]) [] = Except.ok st2
      ∧ HasErrStr st2 "A" "m" := by
  refine C1_amended modelC1 "A" (vobj 0 false [("A", vstr "m")]) [] "m"
    (by decide) (by decide) (Or.inr ⟨by decide, rfl, ?_⟩)
  intro p hp
  simp only [fieldsOf, List.mem_singleton] at hp
  subst hp
  exact Or.inl ⟨"m", rfl⟩

theorem errPathsFields_nil (path : String) : errPathsFields path [] = [] := by
  simp [errPathsFields]

theorem mem_errPathsFields (path p : String) (fs : List (String × JVal)) :
    p ∈ errPathsFields path fs ↔ ∃ k v, (k, v) ∈ fs ∧ p ∈ errPathsVal path k v := by
  induction fs with
  | nil => simp [errPathsFields]
  | cons hd tl ih =>
      obtain ⟨k, v⟩ := hd
      simp only [errPathsFields, List.mem_append, ih, List.mem_cons, Prod.mk.injEq]
      constructor
      · rintro (h | ⟨k2, v2, hm, hp⟩)
        · exact ⟨k, v, Or.inl ⟨rfl, rfl⟩, h⟩
        · exact ⟨k2, v2, Or.inr hm, hp⟩
      · rintro ⟨k2, v2, (⟨hk, hv⟩ | hm), hp⟩
        · subst hk; subst hv; exact Or.inl hp
        · exact Or.inr ⟨k2, v2, hm, hp⟩

theorem setF_mem {α : Type} (l : List (String × α)) (k : String) (v : α) :
    ∀ x ∈ setF l k v, x ∈ l ∨ x = (k, v) := by
  induction l with
  | nil =>
      intro x hx
      simp [setF] at hx
      exact Or.inr hx
  | cons hd tl ih =>
      obtain ⟨a, b⟩ := hd
      intro x hx
      rcases ha : (a == k) with _ | _
      · rw [setF, ha] at hx
        simp only [Bool.false_eq_true, if_false, List.mem_cons] at hx
        rcases hx with h | h
        · exact Or.inl (by simp [h])
        · rcases ih x h with h2 | h2
          · exact Or.inl (List.mem_cons_of_mem _ h2)
          · exact Or.inr h2
      · rw [setF, ha] at hx
        simp only [if_true, List.mem_cons] at hx
        rcases hx with h | h
        · exact Or.inr (by rw [h, eq_of_beq ha])
        · exact Or.inl (List.mem_cons_of_mem _ h)

theorem errPaths_setF_sub (path key : String) (st : St) (v : JVal) :
    ∀ p ∈ errPathsFields path (setF st key v),
      p ∈ errPathsFields path st ∨ p ∈ errPathsVal path key v := by
  intro p hp
  rcases (mem_errPathsFields path p _).1 hp with ⟨k2, v2, hm, hpv⟩
  rcases setF_mem st key v _ hm with h | h
  · exact Or.inl ((mem_errPathsFields path p st).2 ⟨k2, v2, h, hpv⟩)
  · injection h with h1 h2
    subst h1; subst h2
    exact Or.inr hpv

theorem errPathsItems_strings (pk : String) (l : List JVal) (hs : StrList l) :
    ∀ i p, p ∈ errPathsItems pk i l → p = pk := by
  induction l with
  | nil => intro i p hp; simp [errPathsItems] at hp
  | cons x rest ih =>
      intro i p hp
      obtain ⟨s, rfl⟩ := hs x (List.mem_cons_self _ _)
      simp only [errPathsItems, List.mem_append, List.mem_singleton] at hp
      rcases hp with h | h
      · exact h
      · exact ih (fun y hy => hs y (List.mem_cons_of_mem _ hy)) (i + 1) p h

theorem errPathsVal_varr_sub (path k : String) (items : List JVal)
    (props : List (String × JVal)) :
    ∀ p ∈ errPathsVal path k (varr items props),
      p = path ++ k ∨ p ∈ errPathsItems (path ++ k) 0 items := by
  intro p hp
  simp only [errPathsVal] at hp
  split at hp
  · simp only [List.mem_append] at hp
    rcases hp with h | h
    · split at h
      · cases h
      · simp at h; exact Or.inl h
    · exact Or.inr h
  · split at hp
    · cases hp
    · simp at hp; exact Or.inl hp

theorem errPathsVal_strItems_sub (path k : String) (items : List JVal)
    (props : List (String × JVal)) (hs : StrList items) :
    ∀ p ∈ errPathsVal path k (varr items props), p = path ++ k := by
  intro p hp
  rcases errPathsVal_varr_sub path k items props p hp with h | h
  · exact h
  · exact errPathsItems_strings (path ++ k) items hs 0 p h

theorem lookupC_mem {α : Type} (l : List (Nat × α)) (k : Nat) (v : α)
    (h : lookupC l k = some v) : (k, v) ∈ l := by
  induction l with
  | nil => simp [lookupC] at h
  | cons hd tl ih =>
      obtain ⟨a, b⟩ := hd
      rcases ha : (a == k) with _ | _
      · rw [lookupC, ha] at h
        simp only [Bool.false_eq_true, if_false] at h
        exact List.mem_cons_of_mem _ (ih h)
      · rw [lookupC, ha] at h
        simp only [if_true, Option.some.injEq] at h
        have hak : a = k := by
          have := eq_of_beq ha
          exact this
        subst hak; subst h
        exact List.mem_cons_self _ _

theorem validateIdx_isObj (reg : Registry) (sch : Schema) (model ctx orig : JVal)
    (vpath : Option String) (path : String) :
    ∃ gs, validateIdx reg sch model ctx orig vpath path = vobj 0 false gs := by
  rw [validateIdx]
  split
  · exact ⟨[], rfl⟩
  · split
    · exact ⟨_, rfl⟩
    · exact ⟨_, rfl⟩

theorem validateIdx_shape (reg : Registry) (sch : Schema) (model ctx orig : JVal)
    (vpath : Option String) (path : String) :
    validateIdx reg sch model ctx orig vpath path =
      vobj 0 false (fieldsOf (validateIdx reg sch model ctx orig vpath path)) := by
  obtain ⟨gs, h⟩ := validateIdx_isObj reg sch model ctx orig vpath path
  rw [h]
  rfl

/-- Node-shape hypothesis used through the merge lemmas: whatever sits at
`key` is an array node whose element list holds only strings. -/
def StrItemsAt (st : St) (key : String) : Prop :=
  ∀ n, lookupF st key = some n → ∃ items props, n = varr items props ∧ StrList items

theorem ruleBuilt_strItems (model : JVal) (st : St) (key : String)
    (h : RuleBuiltAt model st key) : StrItemsAt st key := by
  intro n hn
  cases n with
  | varr items props =>
      refine ⟨items, props, rfl, ?_⟩
      unfold RuleBuiltAt at h
      rw [hn] at h
      simp only at h
      split at h
      · obtain ⟨hi, _⟩ := h
        subst hi
        intro x hx
        cases hx
      · exact h.2
  | vnull => unfold RuleBuiltAt at h; rw [hn] at h; exact h.elim
  | vundef => unfold RuleBuiltAt at h; rw [hn] at h; exact h.elim
  | vbool b => unfold RuleBuiltAt at h; rw [hn] at h; exact h.elim
  | vnum m => unfold RuleBuiltAt at h; rw [hn] at h; exact h.elim
  | vstr s => unfold RuleBuiltAt at h; rw [hn] at h; exact h.elim
  | vdate => unfold RuleBuiltAt at h; rw [hn] at h; exact h.elim
  | vobj c t f => unfold RuleBuiltAt at h; rw [hn] at h; exact h.elim

theorem ruleBuilt_congr (model : JVal) (st st2 : St) (k : String)
    (h : lookupF st2 k = lookupF st k) (hrb : RuleBuiltAt model st k) :
    RuleBuiltAt model st2 k := by
  unfold RuleBuiltAt at *
  rw [h]
  exact hrb

theorem isRecordJ_strnull (res : JVal) (hres : res = vnull ∨ ∃ t, res = vstr t) :
    isRecordJ res = false := by
  rcases hres with rfl | ⟨t, rfl⟩ <;> rfl

theorem lookupF_addIdx_ne (key : String) (res : JVal) (st : St) (k2 : String)
    (hres : res = vnull ∨ ∃ t, res = vstr t) (hne : (key == k2) = false) :
    lookupF (addIdx key res st) k2 = lookupF st k2 := by
  rw [addIdx, isRecordJ_strnull res hres]
  simp only [Bool.false_eq_true, if_false]
  split
  · split
    · exact lookupF_setF_of_ne st key k2 _ hne
    · exact lookupF_setF_of_ne st key k2 _ hne
  · rfl

theorem errPaths_addIdx (path key : String) (res : JVal) (st : St)
    (hres : res = vnull ∨ ∃ t, res = vstr t) (hsi : StrItemsAt st key) :
    ∀ p ∈ errPathsFields path (addIdx key res st),
      p ∈ errPathsFields path st ∨ p = path ++ key := by
  intro p hp
  rw [addIdx, isRecordJ_strnull res hres] at hp
  simp only [Bool.false_eq_true, if_false] at hp
  have hstr : ∀ items props, (lookupF st key).getD (varr [] []) = varr items props →
      StrList items := by
    intro items props hg
    rcases hl : lookupF st key with _ | node
    · rw [hl] at hg
      simp only [Option.getD_none] at hg
      injection hg with h1 _
      subst h1
      intro x hx; cases hx
    · rw [hl] at hg
      simp only [Option.getD_some] at hg
      obtain ⟨its, prs, hn, hs⟩ := hsi node hl
      rw [hn] at hg
      injection hg with h1 _
      subst h1
      exact hs
  split at hp
  case h_1 items props heq =>
    have hsl : StrList items := hstr items props heq
    split at hp
    · rcases errPaths_setF_sub path key st _ p hp with h | h
      · exact Or.inl h
      · refine Or.inr (errPathsVal_strItems_sub path key _ props ?_ p h)
        intro x hx
        rcases List.mem_append.1 hx with h2 | h2
        · exact hsl x h2
        · rcases hres with rfl | ⟨t, rfl⟩
          · simp_all [isNullJ]
          · simp only [List.mem_singleton] at h2
            exact ⟨t, h2⟩
    · rcases errPaths_setF_sub path key st _ p hp with h | h
      · exact Or.inl h
      · exact Or.inr (errPathsVal_strItems_sub path key items props hsl p h)
  case h_2 =>
    exact Or.inl hp

theorem strItems_addIdx (key : String) (res : JVal) (st : St)
    (hres : res = vnull ∨ ∃ t, res = vstr t) (hsi : StrItemsAt st key) :
    StrItemsAt (addIdx key res st) key := by
  intro n hn
  rw [addIdx, isRecordJ_strnull res hres] at hn
  simp only [Bool.false_eq_true, if_false] at hn
  have hstr : ∀ items props, (lookupF st key).getD (varr [] []) = varr items props →
      StrList items := by
    intro items props hg
    rcases hl : lookupF st key with _ | node
    · rw [hl] at hg
      simp only [Option.getD_none] at hg
      injection hg with h1 _
      subst h1
      intro x hx; cases hx
    · rw [hl] at hg
      simp only [Option.getD_some] at hg
      obtain ⟨its, prs, hn2, hs⟩ := hsi node hl
      rw [hn2] at hg
      injection hg with h1 _
      subst h1
      exact hs
  split at hn
  case h_1 items props heq =>
    have hsl : StrList items := hstr items props heq
    split at hn
    · rw [lookupF_setF_self] at hn
      injection hn with h1
      subst h1
      refine ⟨_, _, rfl, ?_⟩
      intro x hx
      rcases List.mem_append.1 hx with h2 | h2
      · exact hsl x h2
      · rcases hres with rfl | ⟨t, rfl⟩
        · simp_all [isNullJ]
        · simp only [List.mem_singleton] at h2
          exact ⟨t, h2⟩
    · rw [lookupF_setF_self] at hn
      injection hn with h1
      subst h1
      exact ⟨items, props, rfl, hsl⟩
  case h_2 =>
    exact hsi n hn

theorem ruleBuilt_addIdx (model : JVal) (key : String) (res : JVal) (st : St)
    (harr : isArrJ (getFieldJ model key) = false)
    (hres : res = vnull ∨ ∃ t, res = vstr t) (hrb : RuleBuiltAt model st key) :
    RuleBuiltAt model (addIdx key res st) key := by
  rw [addIdx, isRecordJ_strnull res hres]
  simp only [Bool.false_eq_true, if_false]
  have hflat : ∀ items props, (lookupF st key).getD (varr [] []) = varr items props →
      props = [] ∧ StrList items := by
    intro items props hg
    rcases hl : lookupF st key with _ | node
    · rw [hl] at hg
      simp only [Option.getD_none] at hg
      injection hg with h1 h2
      subst h1; subst h2
      exact ⟨rfl, fun x hx => absurd hx (List.not_mem_nil x)⟩
    · rw [hl] at hg
      simp only [Option.getD_some] at hg
      subst hg
      unfold RuleBuiltAt at hrb
      rw [hl] at hrb
      simp only at hrb
      rw [harr] at hrb
      simp only [Bool.false_eq_true, if_false] at hrb
      exact hrb
  split
  case h_1 items props heq =>
    obtain ⟨hpr, hsl⟩ := hflat items props heq
    split
    · unfold RuleBuiltAt
      rw [lookupF_setF_self]
      simp only
      rw [harr]
      simp only [Bool.false_eq_true, if_false]
      refine ⟨hpr, ?_⟩
      intro x hx
      rcases List.mem_append.1 hx with h2 | h2
      · exact hsl x h2
      · rcases hres with rfl | ⟨t, rfl⟩
        · simp_all [isNullJ]
        · simp only [List.mem_singleton] at h2
          exact ⟨t, h2⟩
    · unfold RuleBuiltAt
      rw [lookupF_setF_self]
      simp only
      rw [harr]
      simp only [Bool.false_eq_true, if_false]
      exact ⟨hpr, hsl⟩
  case h_2 =>
    exact hrb

theorem lookupF_innerAddIdx_ne (st : St) (key : String) (res : JVal) (k2 : String)
    (hne : (key == k2) = false) :
    lookupF (innerAddIdx st key res) k2 = lookupF st k2 := by
  rw [innerAddIdx]
  split
  · exact lookupF_setF_of_ne st key k2 _ hne
  · rfl

theorem errPaths_innerAddIdx (path key : String) (res : JVal) (st : St)
    (hres : res = vnull ∨ ∃ t, res = vstr t) (hsi : StrItemsAt st key) :
    ∀ p ∈ errPathsFields path (innerAddIdx st key res), 
      p ∈ errPathsFields path st ∨ p = path ++ key := by
  intro p hp
  rw [innerAddIdx] at hp
  have hstr : ∀ items props, (lookupF st key).getD (varr [] []) = varr items props →
      StrList items := by
    intro items props hg
    rcases hl : lookupF st key with _ | node
    · rw [hl] at hg
      simp only [Option.getD_none] at hg
      injection hg with h1 _
      subst h1
      intro x hx; cases hx
    · rw [hl] at hg
      simp only [Option.getD_some] at hg
      obtain ⟨its, prs, hn, hs⟩ := hsi node hl
      rw [hn] at hg
      injection hg with h1 _
      subst h1
      exact hs
  split at hp
  case h_1 items props heq =>
    have hsl : StrList items := hstr items props heq
    rcases errPaths_setF_sub path key st _ p hp with h | h
    · exact Or.inl h
    · exact Or.inr (errPathsVal_strItems_sub path key items _ hsl p h)
  case h_2 =>
    exact Or.inl hp

theorem ruleBuilt_innerAddIdx (model : JVal) (key : String) (t : String) (st : St)
    (harr : isArrJ (getFieldJ model key) = true) (hrb : RuleBuiltAt model st key) :
    RuleBuiltAt model (innerAddIdx st key (vstr t)) key := by
  rw [innerAddIdx]
  have hsh : ∀ items props, (lookupF st key).getD (varr [] []) = varr items props →
      (items = [] ∧ ∃ es, props = [("errors", varr es [])] ∧ StrList es)
      ∨ (items = [] ∧ props = []) := by
    intro items props hg
    rcases hl : lookupF st key with _ | node
    · rw [hl] at hg
      simp only [Option.getD_none] at hg
      injection hg with h1 h2
      subst h1; subst h2
      exact Or.inr ⟨rfl, rfl⟩
    · rw [hl] at hg
      simp only [Option.getD_some] at hg
      subst hg
      unfold RuleBuiltAt at hrb
      rw [hl] at hrb
      simp only at hrb
      rw [harr] at hrb
      simp only [if_true] at hrb
      exact Or.inl hrb
  split
  case h_1 items props heq =>
    rcases hsh items props heq with ⟨hit, es, hpr, hes⟩ | ⟨hit, hpr⟩
    · subst hit; subst hpr
      unfold RuleBuiltAt
      rw [lookupF_setF_self]
      simp only
      rw [harr]
      simp only [if_true]
      refine ⟨by trivial, ?_⟩
      simp only [isFalsyOpt, lookupF, isFalsyJ, beq_self_eq_true, if_true, memStrict,
        List.any_nil, Bool.not_false, isNullJ, Bool.and_true, setF]
      refine ⟨es ++ [vstr t], rfl, ?_⟩
      intro x hx
      rcases List.mem_append.1 hx with h2 | h2
      · exact hes x h2
      · simp only [List.mem_singleton] at h2
        exact ⟨t, h2⟩
    · subst hit; subst hpr
      unfold RuleBuiltAt
      rw [lookupF_setF_self]
      simp only
      rw [harr]
      simp only [if_true]
      refine ⟨by trivial, ?_⟩
      simp only [isFalsyOpt, lookupF, setF, beq_self_eq_true, if_true, memStrict,
        List.any_nil, Bool.not_false, isNullJ, Bool.and_true]
      refine ⟨[vstr t], rfl, ?_⟩
      intro x hx
      simp only [List.mem_singleton] at hx
      exact ⟨t, hx⟩
  case h_2 =>
    exact hrb

theorem mergeStep_scope (model : JVal) (path key : String) (res : JVal) (st : St)
    (hres : res = vnull ∨ ∃ t, res = vstr t) (hrb : RuleBuiltAt model st key) :
    (∀ p ∈ errPathsFields path (mergeStepIdx model key res st),
        p ∈ errPathsFields path st ∨ p = path ++ key)
    ∧ RuleBuiltAt model (mergeStepIdx model key res st) key
    ∧ ∀ k2, (key == k2) = false →
        lookupF (mergeStepIdx model key res st) k2 = lookupF st k2 := by
  unfold mergeStepIdx
  rcases ha : isArrJ (getFieldJ model key) with _ | _
  · simp only [ha, Bool.false_eq_true, if_false]
    rcases hp : isPrimitiveJ (getFieldJ model key) with _ | _
    · simp only [hp, Bool.false_eq_true, if_false]
      have hnr : (isTypedRecordJ res || isRecordJ res) = false := by
        rcases hres with rfl | ⟨t, rfl⟩ <;> rfl
      simp only [hnr, Bool.false_eq_true, if_false]
      exact ⟨fun p hp2 => Or.inl hp2, hrb, fun _ _ => by trivial⟩
    · simp only [hp, if_true]
      exact ⟨errPaths_addIdx path key res st hres (ruleBuilt_strItems model st key hrb),
        ruleBuilt_addIdx model key res st ha hres hrb,
        fun k2 hk2 => lookupF_addIdx_ne key res st k2 hres hk2⟩
  · simp only [ha, if_true]
    unfold addToArrayIdx
    rcases hres with rfl | ⟨t, rfl⟩
    · simp only [isNullJ, if_true]
      exact ⟨fun p hp2 => Or.inl hp2, hrb, fun _ _ => by trivial⟩
    · simp only [isNullJ, isRecordJ, Bool.false_eq_true, if_false]
      exact ⟨errPaths_innerAddIdx path key (vstr t) st (Or.inr ⟨t, rfl⟩)
          (ruleBuilt_strItems model st key hrb),
        ruleBuilt_innerAddIdx model key t st ha hrb,
        fun k2 hk2 => lookupF_innerAddIdx_ne st key (vstr t) k2 hk2⟩

theorem runValidators_scope (model ctx orig : JVal) (path key : String) :
    ∀ (rules : List Rule) (st : St), (∀ r ∈ rules, StrOrNullRule r) →
    RuleBuiltAt model st key →
    (∀ p ∈ errPathsFields path (runValidatorsIdx model ctx orig key rules st),
        p ∈ errPathsFields path st ∨ p = path ++ key)
    ∧ RuleBuiltAt model (runValidatorsIdx model ctx orig key rules st) key
    ∧ ∀ k2, (key == k2) = false →
        lookupF (runValidatorsIdx model ctx orig key rules st) k2 = lookupF st k2 := by
  intro rules
  induction rules with
  | nil =>
      intro st _ hrb
      rw [runValidatorsIdx]
      exact ⟨fun p hp => Or.inl hp, hrb, fun _ _ => rfl⟩
  | cons r rest ih =>
      intro st hrules hrb
      rw [runValidatorsIdx]
      have hres : runRuleJ r model ctx orig (getFieldJ model key) = vnull
          ∨ ∃ t, runRuleJ r model ctx orig (getFieldJ model key) = vstr t := by
        rcases hrules r (List.mem_cons_self _ _) model ctx orig (getFieldJ model key) with
          ⟨t, h⟩ | h
        · exact Or.inr ⟨t, h⟩
        · exact Or.inl h
      obtain ⟨hm1, hm2, hm3⟩ := mergeStep_scope model path key _ st hres hrb
      obtain ⟨hr1, hr2, hr3⟩ := ih _ (fun r2 h2 => hrules r2 (List.mem_cons_of_mem _ h2)) hm2
      refine ⟨?_, hr2, ?_⟩
      · intro p hp
        rcases hr1 p hp with h | h
        · exact hm1 p h
        · exact Or.inr h
      · intro k2 hk2
        rw [hr3 k2 hk2, hm3 k2 hk2]

theorem decodeErrs_scope (path key : String) :
    ∀ (msgs : List String) (st : St), StrItemsAt st key →
    (∀ p ∈ errPathsFields path (decodeErrsIdx key msgs st),
        p ∈ errPathsFields path st ∨ p = path ++ key)
    ∧ ∀ k2, (key == k2) = false → lookupF (decodeErrsIdx key msgs st) k2 = lookupF st k2 := by
  intro msgs
  induction msgs with
  | nil =>
      intro st _
      rw [decodeErrsIdx]
      exact ⟨fun p hp => Or.inl hp, fun _ _ => rfl⟩
  | cons m rest ih =>
      intro st hsi
      rw [decodeErrsIdx]
      have hres : (vstr m : JVal) = vnull ∨ ∃ t, (vstr m : JVal) = vstr t := Or.inr ⟨m, rfl⟩
      obtain ⟨h1, h2⟩ := ih (addIdx key (vstr m) st) (strItems_addIdx key (vstr m) st hres hsi)
      refine ⟨?_, ?_⟩
      · intro p hp
        rcases h1 p hp with h | h
        · exact errPaths_addIdx path key (vstr m) st hres hsi p h
        · exact Or.inr h
      · intro k2 hk2
        rw [h2 k2 hk2, lookupF_addIdx_ne key (vstr m) st k2 hres hk2]

theorem validatorLoop_scope (model ctx orig : JVal) (vpath : Option String) (path : String) :
    ∀ (vs : List (String × List Rule)) (st : St),
    (∀ fe ∈ vs, ∀ r ∈ fe.2, StrOrNullRule r) →
    InScopeSt vpath path st → (∀ k, RuleBuiltAt model st k) →
    InScopeSt vpath path (validatorLoopIdx model ctx orig vpath path vs st)
    ∧ ∀ k, RuleBuiltAt model (validatorLoopIdx model ctx orig vpath path vs st) k := by
  intro vs
  induction vs with
  | nil =>
      intro st _ hsc hrb
      rw [validatorLoopIdx]
      exact ⟨hsc, hrb⟩
  | cons fe rest ih =>
      obtain ⟨key, rules⟩ := fe
      intro st hvs hsc hrb
      rw [validatorLoopIdx]
      rcases hg : isInValidationPath (path ++ key) vpath with _ | _
      · simp only [hg, Bool.false_eq_true, if_false]
        exact ih st (fun fe2 h2 => hvs fe2 (List.mem_cons_of_mem _ h2)) hsc hrb
      · simp only [hg, if_true]
        obtain ⟨h1, h2, h3⟩ := runValidators_scope model ctx orig path key rules st
          (hvs (key, rules) (List.mem_cons_self _ _)) (hrb key)
        refine ih _ (fun fe2 hm => hvs fe2 (List.mem_cons_of_mem _ hm)) ?_ ?_
        · intro p hp
          rcases h1 p hp with h | h
          · exact hsc p h
          · rw [h]; exact hg
        · intro k
          rcases hk : (key == k) with _ | _
          · exact ruleBuilt_congr model st _ k (h3 k hk) (hrb k)
          · have hkk : key = k := eq_of_beq hk
            subst hkk
            exact h2

theorem goodRules_validators (reg : Registry) (c : Nat) (h : GoodRules reg) :
    ∀ fe ∈ getValidatorsForJ reg c, ∀ r ∈ fe.2, StrOrNullRule r := by
  intro fe hfe r hr
  unfold getValidatorsForJ at hfe
  rcases hl : lookupC reg c with _ | v
  · rw [hl] at hfe
    simp at hfe
  · rw [hl] at hfe
    simp only [Option.getD_some] at hfe
    exact h (c, v) (lookupC_mem reg c v hl) fe hfe r hr

/-- General scope invariant of the `src/index.ts` engine: when every
registered rule returns a plain error string or null (no partial mappings)
and every schema lists its field keys without duplicates, every error path
of the whole result graph passes the scope prefix test. -/
theorem validateIdx_scope : ∀ (n : Nat) (reg : Registry) (sch : Schema)
    (model ctx orig : JVal) (vpath : Option String) (path : String),
    sizeOf model ≤ n → GoodRules reg → NodupSchemas sch →
    ∀ p ∈ errPathsFields path (fieldsOf (validateIdx reg sch model ctx orig vpath path)),
      isInValidationPath p vpath = true := by
  intro n
  induction n using Nat.strong_induction_on with
  | _ n ih =>
    intro reg sch model ctx orig vpath path hsz hgood hnodup p hp
    have hini1 : InScopeSt vpath path ([] : St) := by
      intro q hq
      rw [errPathsFields_nil] at hq
      cases hq
    have hini2 : ∀ (m : JVal) (k : String), RuleBuiltAt m ([] : St) k := by
      intro m k
      unfold RuleBuiltAt
      simp [lookupF]
    cases model with
    | vnull => rw [validateIdx] at hp; simp [isPrimitiveJ, fieldsOf, errPathsFields] at hp
    | vundef => rw [validateIdx] at hp; simp [isPrimitiveJ, fieldsOf, errPathsFields] at hp
    | vbool b => rw [validateIdx] at hp; simp [isPrimitiveJ, fieldsOf, errPathsFields] at hp
    | vnum m => rw [validateIdx] at hp; simp [isPrimitiveJ, fieldsOf, errPathsFields] at hp
    | vstr s => rw [validateIdx] at hp; simp [isPrimitiveJ, fieldsOf, errPathsFields] at hp
    | vdate => rw [validateIdx] at hp; simp [isPrimitiveJ, fieldsOf, errPathsFields] at hp
    | varr items0 props0 =>
        rw [validateIdx] at hp
        simp only [isPrimitiveJ, Bool.false_eq_true, if_false, fieldsOf] at hp
        obtain ⟨hs0, _⟩ := validatorLoop_scope (varr items0 props0) ctx orig vpath path
          (getValidatorsForJ reg (classOfJ (varr items0 props0))) []
          (goodRules_validators reg _ hgood) hini1 (hini2 _)
        exact hs0 p hp
    | vobj c typed fs =>
        cases typed with
        | false =>
            rw [validateIdx] at hp
            simp only [isPrimitiveJ, Bool.false_eq_true, if_false, fieldsOf] at hp
            obtain ⟨hs0, _⟩ := validatorLoop_scope (vobj c false fs) ctx orig vpath path
              (getValidatorsForJ reg (classOfJ (vobj c false fs))) []
              (goodRules_validators reg _ hgood) hini1 (hini2 _)
            exact hs0 p hp
        | true =>
            rw [validateIdx] at hp
            simp only [isPrimitiveJ, Bool.false_eq_true, if_false, fieldsOf] at hp
            have hfsn : sizeOf fs < n := by
              have h2 : sizeOf (vobj c true fs) ≤ n := hsz
              simp only [JVal.vobj.sizeOf_spec] at h2
              omega
            have harr : ∀ (originalValue : JVal) (pk : String) (items0 : List JVal),
                sizeOf items0 ≤ n →
                ∀ i q, q ∈ errPathsItems pk i
                    (validateArrayIdx reg sch ctx originalValue vpath pk items0 i) →
                  isInValidationPath q vpath = true := by
              intro originalValue pk items0
              induction items0 with
              | nil =>
                  intro _ i q hq
                  rw [validateArrayIdx] at hq
                  simp [errPathsItems] at hq
              | cons x rest ihl =>
                  intro hb i q hq
                  have hx : sizeOf x < n := by
                    simp only [List.cons.sizeOf_spec] at hb
                    omega
                  have hr : sizeOf rest ≤ n := by
                    simp only [List.cons.sizeOf_spec] at hb
                    omega
                  simp only [validateArrayIdx] at hq
                  rw [validateIdx_shape reg sch x ctx] at hq
                  simp only [errPathsItems, List.mem_append] at hq
                  rcases hq with h | h
                  · exact ih (sizeOf x) hx reg sch x ctx _ vpath _ (le_refl _) hgood hnodup q h
                  · exact ihl hr (i + 1) q h
            have hiface : ∀ (key : String) (propValue originalValue : JVal) (st : St),
                isInValidationPath (path ++ key) vpath = true →
                sizeOf propValue < n →
                InScopeSt vpath path st →
                RuleBuiltAt (vobj c true fs) st key →
                InScopeSt vpath path
                  (schemaIfaceIdx reg sch ctx originalValue vpath path key propValue
                    (lookupF st key) st)
                ∧ ∀ k2, (key == k2) = false →
                    lookupF (schemaIfaceIdx reg sch ctx originalValue vpath path key propValue
                      (lookupF st key) st) k2 = lookupF st k2 := by
              intro key propValue originalValue st hgd hszp hsc hrb
              have hinner := ih (sizeOf propValue) hszp reg sch propValue ctx originalValue vpath
                (path ++ key ++ ".") (le_refl _) hgood hnodup
              rcases hl : lookupF st key with _ | cur
              · rw [schemaIfaceIdx]
                constructor
                · intro q hq
                  rcases errPaths_setF_sub path key st _ q hq with h | h
                  · exact hsc q h
                  · rw [validateIdx_shape reg sch propValue ctx] at h
                    simp only [errPathsVal] at h
                    exact hinner q h
                · intro k2 hk2
                  exact lookupF_setF_of_ne st key k2 _ hk2
              · have hcur := ruleBuilt_strItems _ st key hrb cur hl
                obtain ⟨citems, cprops, rfl, hcs⟩ := hcur
                rw [schemaIfaceIdx]
                split
                · constructor
                  · intro q hq
                    rcases errPaths_setF_sub path key st _ q hq with h | h
                    · exact hsc q h
                    · simp only [jsAssign] at h
                      have hqe := errPathsVal_strItems_sub path key citems _ hcs q h
                      rw [hqe]
                      exact hgd
                  · intro k2 hk2
                    exact lookupF_setF_of_ne st key k2 _ hk2
                · exact ⟨hsc, fun _ _ => rfl⟩
            have hstep : ∀ (key : String) (ftag : FieldTag) (st : St),
                InScopeSt vpath path st →
                RuleBuiltAt (vobj c true fs) st key →
                InScopeSt vpath path
                  (schemaStepIdx reg sch ctx orig vpath path fs key ftag st)
                ∧ ∀ k2, (key == k2) = false →
                    lookupF (schemaStepIdx reg sch ctx orig vpath path fs key ftag st) k2
                      = lookupF st k2 := by
              intro key ftag st hsc hrb
              rw [schemaStepIdx]
              rcases hgd : isInValidationPath (path ++ key) vpath with _ | _
              · simp only [hgd, Bool.false_eq_true, if_false]
                exact ⟨hsc, fun _ _ => by trivial⟩
              · simp only [hgd, if_true]
                have hpv : sizeOf ((lookupF fs key).getD vundef) < n := by
                  have h3 := sizeOf_lookupF_lt fs key
                  omega
                cases ftag with
                | interfaceType =>
                    exact hiface key _ _ st hgd hpv hsc hrb
                | arrayType =>
                    rcases htp : isTypedRecordJ ((lookupF fs key).getD vundef) with _ | _
                    · simp only [htp, Bool.false_eq_true, if_false]
                      have hbits : sizeOf (itemsOf ((lookupF fs key).getD vundef)) ≤ n := by
                        have h4 := sizeOf_itemsOf_le ((lookupF fs key).getD vundef)
                        omega
                      rcases hl : lookupF st key with _ | node
                      · simp only [Option.getD_none, isFalsyOpt, lookupF, setF,
                          List.nil_append]
                        constructor
                        · intro q hq
                          rcases errPaths_setF_sub path key st _ q hq with h | h
                          · exact hsc q h
                          · simp only [errPathsVal, lookupF, List.isEmpty_nil,
                              beq_self_eq_true, if_true, List.nil_append] at h
                            exact harr _ (path ++ key) _ hbits 0 q h
                        · intro k2 hk2
                          exact lookupF_setF_of_ne st key k2 _ hk2
                      · simp only [Option.getD_some]
                        unfold RuleBuiltAt at hrb
                        rw [hl] at hrb
                        cases node with
                        | varr nitems naprops =>
                            simp only [getFieldJ] at hrb
                            rcases ha : isArrJ ((lookupF fs key).getD vundef) with _ | _
                            · simp only [ha, Bool.false_eq_true, if_false] at hrb
                              obtain ⟨hpr0, hsl⟩ := hrb
                              subst hpr0
                              have hito : itemsOf ((lookupF fs key).getD vundef) = [] := by
                                rcases hv : (lookupF fs key).getD vundef with
                                  _ | _ | _ | _ | _ | _ | ⟨a, b⟩ | ⟨a, b2, c2⟩
                                case varr => rw [hv] at ha; simp [isArrJ] at ha
                                all_goals rfl
                              rw [hito]
                              rw [validateArrayIdx]
                              simp only [isFalsyOpt, lookupF, List.append_nil, if_true, setF]
                              constructor
                              · intro q hq
                                rcases errPaths_setF_sub path key st _ q hq with h | h
                                · exact hsc q h
                                · have hqe := errPathsVal_strItems_sub path key nitems _ hsl q h
                                  rw [hqe]
                                  exact hgd
                              · intro k2 hk2
                                exact lookupF_setF_of_ne st key k2 _ hk2
                            · simp only [ha, if_true] at hrb
                              obtain ⟨hit0, es, hpr0, hes⟩ := hrb
                              subst hit0
                              subst hpr0
                              simp only [isFalsyOpt, lookupF, beq_self_eq_true, if_true,
                                isFalsyJ, List.nil_append, Bool.false_eq_true, if_false]
                              constructor
                              · intro q hq
                                rcases errPaths_setF_sub path key st _ q hq with h | h
                                · exact hsc q h
                                · simp only [errPathsVal, lookupF, beq_self_eq_true,
                                    if_true] at h
                                  rcases List.mem_append.1 h with h2 | h2
                                  · split at h2
                                    · cases h2
                                    · simp only [List.mem_singleton] at h2
                                      rw [h2]
                                      exact hgd
                                  · exact harr _ (path ++ key) _ hbits 0 q h2
                              · intro k2 hk2
                                exact lookupF_setF_of_ne st key k2 _ hk2
                        | vnull => exact hrb.elim
                        | vundef => exact hrb.elim
                        | vbool b => exact hrb.elim
                        | vnum m => exact hrb.elim
                        | vstr s => exact hrb.elim
                        | vdate => exact hrb.elim
                        | vobj c2 t2 f2 => exact hrb.elim
                    · simp only [htp, if_true]
                      exact hiface key _ _ st hgd hpv hsc hrb
                | otherTag decode =>
                    rcases htp : isTypedRecordJ ((lookupF fs key).getD vundef) with _ | _
                    · simp only [htp, Bool.false_eq_true, if_false]
                      rcases hl : lookupF st key with _ | node
                      · simp only [Option.isNone_none, if_true]
                        have hsi2 : StrItemsAt (setF st key (varr [] [])) key := by
                          intro n2 hn2
                          rw [lookupF_setF_self] at hn2
                          injection hn2 with h5
                          subst h5
                          exact ⟨[], [], rfl, fun x hx => absurd hx (List.not_mem_nil x)⟩
                        obtain ⟨hd1, hd2⟩ := decodeErrs_scope path key
                          (decode ((lookupF fs key).getD vundef)) _ hsi2
                        constructor
                        · intro q hq
                          rcases hd1 q hq with h | h
                          · rcases errPaths_setF_sub path key st _ q h with h2 | h2
                            · exact hsc q h2
                            · simp only [errPathsVal, lookupF, List.isEmpty_nil,
                                if_true] at h2
                              cases h2
                          · rw [h]; exact hgd
                        · intro k2 hk2
                          rw [hd2 k2 hk2]
                          exact lookupF_setF_of_ne st key k2 _ hk2
                      · simp only [Option.isNone_some, Bool.false_eq_true, if_false]
                        have hsi2 : StrItemsAt st key := ruleBuilt_strItems _ st key hrb
                        obtain ⟨hd1, hd2⟩ := decodeErrs_scope path key
                          (decode ((lookupF fs key).getD vundef)) st hsi2
                        constructor
                        · intro q hq
                          rcases hd1 q hq with h | h
                          · exact hsc q h
                          · rw [h]; exact hgd
                        · intro k2 hk2
                          exact hd2 k2 hk2
                    · simp only [htp, if_true]
                      exact hiface key _ _ st hgd hpv hsc hrb
            have hloop : ∀ (sprops : List (String × FieldTag)) (st : St),
                (sprops.map Prod.fst).Nodup →
                InScopeSt vpath path st →
                (∀ key ∈ sprops.map Prod.fst, RuleBuiltAt (vobj c true fs) st key) →
                InScopeSt vpath path (schemaLoopIdx reg sch ctx orig vpath path fs sprops st) := by
              intro sprops
              induction sprops with
              | nil =>
                  intro st _ hsc _
                  rw [schemaLoopIdx]
                  exact hsc
              | cons hd rest ihp =>
                  obtain ⟨key, ftag⟩ := hd
                  intro st hnd hsc hrb
                  rw [schemaLoopIdx]
                  obtain ⟨h1, h2⟩ := hstep key ftag st hsc (hrb key (by simp))
                  have hnd2 : (rest.map Prod.fst).Nodup := by
                    simp only [List.map_cons, List.nodup_cons] at hnd
                    exact hnd.2
                  have hkey_notin : key ∉ rest.map Prod.fst := by
                    simp only [List.map_cons, List.nodup_cons] at hnd
                    exact hnd.1
                  refine ihp _ hnd2 h1 ?_
                  intro k2 hk2
                  have hne : (key == k2) = false := by
                    rcases hbe : (key == k2) with _ | _
                    · rfl
                    · exfalso
                      have hkk : key = k2 := eq_of_beq hbe
                      rw [hkk] at hkey_notin
                      exact hkey_notin hk2
                  exact ruleBuilt_congr _ st _ k2 (h2 k2 hne) (hrb k2 (by simp [hk2]))
            obtain ⟨hs0, hrb0⟩ := validatorLoop_scope (vobj c true fs) ctx orig vpath path
              (getValidatorsForJ reg (classOfJ (vobj c true fs))) []
              (goodRules_validators reg _ hgood) hini1 (hini2 _)
            exact hloop (sch c) _ (hnodup c) hs0 (fun key _ => hrb0 key) p hp

/-- C6 as amended: a field's rules and schema entry run exactly when the
scope is unset or starts with the field's accumulated path — the
`isInValidationPath` characterization — and, as long as every registered
rule returns a plain error string or null and schemas carry no duplicate
field keys, every error path anywhere in the result graph (flat field
lists, array `errors` channels, array elements and nested objects alike)
satisfies the scope prefix test; over every possible scope, a registry of
two string-returning field rules moreover shows each field's error list
present (with its error) exactly when in scope and absent otherwise.
Rules returning cross-field partial mappings escape the scope check — see
the counterexample. -/
theorem C6_amended :
    (∀ p, isInValidationPath p none = true)
    ∧ (∀ p s, isInValidationPath p (some s) = strStartsWith s p)
    ∧ (∀ (reg : Registry) (sch : Schema) (model ctx orig : JVal)
        (vpath : Option String) (path : String),
        GoodRules reg → NodupSchemas sch →
        ∀ p ∈ errPathsFields path (fieldsOf (validateIdx reg sch model ctx orig vpath path)),
          isInValidationPath p vpath = true)
    ∧ (∀ vp, lookupF (fieldsOf (validateIdx regC6b schC6b modelC6b vnull vundef vp ".")) "B"
        = if isInValidationPath ".B" vp = true then some (varr [vstr "e1"] []) else none)
    ∧ (∀ vp, lookupF (fieldsOf (validateIdx regC6b schC6b modelC6b vnull vundef vp ".")) "C"
        = if isInValidationPath ".C" vp = true then some (varr [vstr "e2"] []) else none) := by
  refine ⟨fun p => rfl, fun p s => rfl, ?_, ?_, ?_⟩
  · intro reg sch model ctx orig vpath path hg hn p hp
    exact validateIdx_scope (sizeOf model) reg sch model ctx orig vpath path (le_refl _)
      hg hn p hp
  all_goals
    (intro vp
     rcases hB : isInValidationPath ".B" vp with _ | _ <;>
       rcases hC : isInValidationPath ".C" vp with _ | _ <;>
        simp [validateIdx, schemaLoopIdx, schemaStepIdx, schemaIfaceIdx, validateArrayIdx,
          validatorLoopIdx, runValidatorsIdx, mergeStepIdx, addIdx, addFieldsIdx, addToArrayIdx,
          addToArrayFieldsIdx, innerAddIdx, decodeErrsIdx, getValidatorsForJ, lookupC, lookupF,
          setF, runRuleJ, getFieldJ, isArrJ, isPrimitiveJ, isRecordJ, isTypedRecordJ, isNullJ,
          isUndefJ, isFalsyOpt, isFalsyJ, memStrict, strictEq, fieldsOf, itemsOf, classOfJ,
          hasKeyJ, jsAssign, regC6b, schC6b, modelC6b, hB, hC])

/-- Witness for C6 as amended: the concrete two-field registry satisfies
the string-or-null and duplicate-free hypotheses, and the scope invariant
applies to the error path the scoped run actually produces. -/
theorem C6_amended_witness :
    GoodRules regC6b ∧ NodupSchemas schC6b ∧ isInValidationPath ".B" (some ".B") = true := by
  have hg : GoodRules regC6b := by
    intro e he fe hfe r hr
    simp only [regC6b] at he
    have he2 := List.mem_singleton.1 he
    subst he2
    simp only [List.mem_cons, List.mem_singleton] at hfe
    rcases hfe with rfl | rfl | h0
    · simp only [List.mem_singleton] at hr
      subst hr
      intro m c2 o pv
      exact Or.inl ⟨"e1", rfl⟩
    · simp only [List.mem_singleton] at hr
      subst hr
      intro m c2 o pv
      exact Or.inl ⟨"e2", rfl⟩
    · cases h0
  have hn : NodupSchemas schC6b := by
    intro c
    by_cases hc : (c == 41) = true
    · simp only [schC6b, hc, if_true]
      decide
    · simp only [schC6b, hc, Bool.false_eq_true, if_false]
      exact List.nodup_nil
  have hB : isInValidationPath ".B" (some ".B") = true := by decide
  have hC : isInValidationPath ".C" (some ".B") = false := by decide
  have hmem : ".B" ∈ errPathsFields "."
      (fieldsOf (validateIdx regC6b schC6b modelC6b vnull vundef (some ".B") ".")) := by
    simp [validateIdx, schemaLoopIdx, schemaStepIdx, schemaIfaceIdx, validateArrayIdx,
      validatorLoopIdx, runValidatorsIdx, mergeStepIdx, addIdx, addFieldsIdx, addToArrayIdx,
      addToArrayFieldsIdx, innerAddIdx, decodeErrsIdx, getValidatorsForJ, lookupC, lookupF,
      setF, runRuleJ, getFieldJ, isArrJ, isPrimitiveJ, isRecordJ, isTypedRecordJ, isNullJ,
      isUndefJ, isFalsyOpt, isFalsyJ, memStrict, strictEq, fieldsOf, itemsOf, classOfJ,
      hasKeyJ, jsAssign, regC6b, schC6b, modelC6b, hB, hC,
      errPathsFields, errPathsVal, errPathsItems]
  exact ⟨hg, hn,
    C6_amended.2.2.1 regC6b schC6b modelC6b vnull vundef (some ".B") "." hg hn ".B" hmem⟩
